import Mathlib

/-!
Shallow embedding of the folder-inference / reorganization engine and the
structural diff engine of the apidog-sync-mcp-server repository, together
with proofs about the claims of its specification.

JavaScript strings are modelled as Lean `String` and the relevant string
operations (`split`, `toLowerCase`, `startsWith`, `includes`, `trim`,
capitalisation) are re-implemented over the character list so that they are
fully executable by the kernel.  JavaScript `null`/`undefined`-or-string
values are modelled as `Option String`; the JavaScript truthiness of strings
(the empty string is falsy) is made explicit in the helpers named `js...`.
JavaScript objects used as ordered string-keyed maps are modelled as
association lists with insertion-order semantics (`pushAssoc`, `lookupA`,
`updateAssoc`); actual JS objects have unique keys, which theorems assume
via `Nodup` hypotheses where it matters.
-/

namespace ApidogSync

/-- JS `s.toLowerCase()` (ASCII, which is all the source ever feeds it). -/
def strToLower (s : String) : String := ⟨s.data.map Char.toLower⟩

/-- JS `s.toUpperCase()` (ASCII). -/
def strToUpper (s : String) : String := ⟨s.data.map Char.toUpper⟩

/-- Character-level splitter underlying JS `s.split(sep)` for a one-character
separator: `splitCharList '/' "a//b".data = [['a'],[],['b']]`. -/
def splitCharList (sep : Char) : List Char → List (List Char)
  | [] => [[]]
  | c :: t =>
    match splitCharList sep t with
    | [] => [[c]]
    | h :: r => if c = sep then [] :: h :: r else (c :: h) :: r

/-- JS `s.split(sep)` for a one-character separator. -/
def splitChar (sep : Char) (s : String) : List String :=
  (splitCharList sep s.data).map (fun l => ⟨l⟩)

/-- JS `s.startsWith(c)` for a single character. -/
def strHeadIs (s : String) (c : Char) : Bool := s.data.head? == some c

/-- JS `s.includes(c)` for a single character. -/
def strContainsChar (s : String) (c : Char) : Bool := s.data.contains c

/-- JS `path.startsWith(pre)`. -/
def strStartsWith (s pre : String) : Bool := pre.data.isPrefixOf s.data

/-- JS `s.trim() === ''`: every character is whitespace (true for `""`). -/
def jsIsBlank (s : String) : Bool := s.data.all Char.isWhitespace

/-- The regular expression `/^v\d+$/i` of the source: a `v` or `V` followed
by one or more digits. -/
def isVersionSegment (s : String) : Bool :=
  match s.data with
  | c :: rest => (c == 'v' || c == 'V') && !rest.isEmpty && rest.all Char.isDigit
  | [] => false

/-- JS `word.charAt(0).toUpperCase() + word.slice(1).toLowerCase()`
(used by `inferFolderFromPath`). -/
def capitalizeWord (w : String) : String :=
  match w.data with
  | [] => ""
  | c :: rest => ⟨Char.toUpper c :: rest.map Char.toLower⟩

/-- JS `w.charAt(0).toUpperCase() + w.slice(1)` (used by the `flat`
strategy: the remainder of the word is NOT lower-cased there). -/
def capitalizeHead (w : String) : String :=
  match w.data with
  | [] => ""
  | c :: rest => ⟨Char.toUpper c :: rest⟩

/-- JS `parts.join(sep)`. -/
def joinSep (sep : String) : List String → String
  | [] => ""
  | [a] => a
  | a :: t => a ++ sep ++ joinSep sep t

/-- `s.split('-').map(capitalizeWord).join(' ')` of `inferFolderFromPath`. -/
def capitalizeSegment (s : String) : String :=
  joinSep " " ((splitChar '-' s).map capitalizeWord)

/-- JS `l.slice(0, n)` where `n` may be negative (then it counts from the
end, clamped at zero). -/
def jsSliceTo (l : List α) (n : Int) : List α :=
  if n < 0 then l.take ((l.length : Int) + n).toNat else l.take n.toNat

/-- The options record of `inferFolderFromPath`, with the source's
defaults. -/
structure InferOptions where
  stripApiPrefix : Bool := true
  stripVersion : Bool := false
  maxDepth : Int := 3
  capitalizeSegments : Bool := true
deriving DecidableEq

/-- `inferFolderFromPath(urlPath, options)` of the folder organizer:
split on `/`, drop empty segments, optionally drop a leading `api` and a
leading version segment, drop `{...}` parameter segments, drop a hyphenated
last segment when more than one segment remains, truncate to `maxDepth`,
title-case each segment, and join with `/`. -/
def inferFolderFromPath (urlPath : String) (options : InferOptions := {}) : String :=
  let segments := (splitChar '/' urlPath).filter (fun s => s != "")
  let segments :=
    if options.stripApiPrefix && (segments.head?.map strToLower == some "api") then
      segments.tail
    else segments
  let segments :=
    if options.stripVersion &&
        (match segments.head? with
         | some s => isVersionSegment s
         | none => false) then
      segments.tail
    else segments
  let segments := segments.filter (fun s => !(strHeadIs s '{'))
  let segments :=
    if segments.length > 1 &&
        (match segments.getLast? with
         | some l => strContainsChar l '-'
         | none => false) then
      segments.dropLast
    else segments
  let segments := jsSliceTo segments options.maxDepth
  let segments :=
    if options.capitalizeSegments then segments.map capitalizeSegment else segments
  joinSep "/" segments

/-- JS `x || null` on a null-or-string value: the empty string is falsy and
collapses to `null`. -/
def jsStrOrNull : Option String → Option String
  | some s => if s == "" then none else some s
  | none => none

/-- JS `x || d` on a null-or-string value with a string default. -/
def jsStrOrDefault (x : Option String) (d : String) : String :=
  match x with
  | some s => if s == "" then d else s
  | none => d

/-- The fields of an OpenAPI operation object that the organizer reads.
`none` models an absent (`undefined`) property; all other properties of the
operation are never read or written by the modelled code and are omitted. -/
structure Operation where
  summary : Option String := none
  description : Option String := none
  tags : Option (List String) := none
  deprecated : Option Bool := none
  xApidogFolder : Option String := none
  xApidogStatus : Option String := none
  xApidogMaintainer : Option String := none
deriving DecidableEq

/-- An endpoint record as built by `ApidogClient.parseEndpoints` (or as
supplied directly by a caller, in which case `operation` may be absent). -/
structure Endpoint where
  method : String := ""
  path : String := ""
  summary : String := ""
  description : String := ""
  tags : List String := []
  deprecated : Bool := false
  folder : Option String := none
  status : Option String := none
  maintainer : Option String := none
  operation : Option Operation := none
deriving DecidableEq

/-- An OpenAPI document as the applier sees it: `paths` maps a path to an
object mapping method keys to operations (insertion-ordered, unique keys in
real JS objects). -/
structure Document where
  paths : List (String × List (String × Operation)) := []
deriving DecidableEq

/-- The method keys accepted by `parseEndpoints`. -/
def httpMethods : List String :=
  ["get", "post", "put", "patch", "delete", "head", "options"]

/-- One parsed endpoint record: `method` is upper-cased, stringly fields
default to `''`/`[]`/`false`, vendor extensions collapse to `null` when
falsy, and the raw operation rides along. -/
def parsedEndpoint (path method : String) (op : Operation) : Endpoint :=
  { method := strToUpper method
    path := path
    summary := op.summary.getD ""
    description := op.description.getD ""
    tags := op.tags.getD []
    deprecated := op.deprecated.getD false
    folder := jsStrOrNull op.xApidogFolder
    status := jsStrOrNull op.xApidogStatus
    maintainer := jsStrOrNull op.xApidogMaintainer
    operation := some op }

/-- `ApidogClient.parseEndpoints(spec)`: flatten `spec.paths` into a list of
endpoint records, keeping only recognised HTTP verbs. -/
def parseEndpoints (spec : Document) : List Endpoint :=
  spec.paths.flatMap fun pm =>
    (pm.2.filter (fun mo => httpMethods.contains mo.1)).map fun mo =>
      parsedEndpoint pm.1 mo.1 mo.2

/-- The expression `ep.folder || ep.operation?.['x-apidog-folder'] || null`
shared by `analyzeFolders` and `proposeReorganization`. -/
def currentFolderOf (ep : Endpoint) : Option String :=
  (jsStrOrNull ep.folder).orElse fun _ =>
    jsStrOrNull (ep.operation.bind Operation.xApidogFolder)

/-- `folders[k].push(x)`, creating `folders[k] = []` first when absent: an
insertion-ordered string-keyed map as a JS object behaves. -/
def pushAssoc (l : List (String × List α)) (k : String) (x : α) :
    List (String × List α) :=
  match l with
  | [] => [(k, [x])]
  | kv :: t =>
    if kv.1 == k then (kv.1, kv.2 ++ [x]) :: t else kv :: pushAssoc t k x

/-- The result record of `analyzeFolders`. -/
structure FolderStats where
  totalEndpoints : Nat
  totalFolders : Nat
  unfolderedCount : Nat
  folders : List (String × List Endpoint)
  unfoldered : List Endpoint
deriving DecidableEq

/-- The accumulation loop of `analyzeFolders`. -/
def analyzeLoop :
    List Endpoint → List (String × List Endpoint) × List Endpoint →
    List (String × List Endpoint) × List Endpoint
  | [], acc => acc
  | ep :: rest, (folders, noFolder) =>
    match currentFolderOf ep with
    | some f => analyzeLoop rest (pushAssoc folders f ep, noFolder)
    | none => analyzeLoop rest (folders, noFolder ++ [ep])

/-- `analyzeFolders(endpoints)`: group endpoints by their current folder and
report the ones with none. -/
def analyzeFolders (endpoints : List Endpoint) : FolderStats :=
  let fo := analyzeLoop endpoints ([], [])
  { totalEndpoints := endpoints.length
    totalFolders := fo.1.length
    unfolderedCount := fo.2.length
    folders := fo.1
    unfoldered := fo.2 }

/-- The options record of `proposeReorganization`, with the source's
defaults.  `customMappings` is insertion-ordered, as `Object.entries` of the
JS object is. -/
structure ReorgOptions where
  strategy : String := "path-based"
  groupByVersion : Bool := false
  stripApiPrefix : Bool := true
  maxDepth : Int := 3
  customMappings : List (String × String) := []
deriving DecidableEq

/-- A single move of the plan. -/
structure Change where
  method : String
  path : String
  summary : String
  oldFolder : String
  newFolder : String
deriving DecidableEq

/-- An entry of the plan's `unchanged` list. -/
structure UnchangedEntry where
  method : String
  path : String
  folder : Option String
deriving DecidableEq

/-- The projection stored in `proposedFolders` of the returned plan. -/
structure EndpointSummary where
  method : String
  path : String
  summary : String
deriving DecidableEq

/-- The record returned by `proposeReorganization`. -/
structure ReorganizationPlan where
  strategy : String
  totalEndpoints : Nat
  changesCount : Nat
  unchangedCount : Nat
  proposedFolders : List (String × List EndpointSummary)
  changes : List Change
  unchanged : List UnchangedEntry
deriving DecidableEq

/-- The `flat` strategy's folder for a path: the first segment that is
non-empty, not a `{...}` parameter, not `api` (case-insensitively) and not a
version segment, split on `-` with each word's head upper-cased and joined
by spaces; `"Other"` when no segment remains. -/
def flatFolderOf (path : String) : String :=
  match ((splitChar '/' path).filter fun s =>
      s != "" && !(strHeadIs s '{') && strToLower s != "api" &&
        !(isVersionSegment s)).head? with
  | some s0 => joinSep " " ((splitChar '-' s0).map capitalizeHead)
  | none => "Other"

/-- The `switch (strategy)` of `proposeReorganization` (reached when no
custom mapping matched). -/
def strategyFolder (options : ReorgOptions) (path : String)
    (currentFolder : Option String) : String :=
  if options.strategy == "path-based" then
    inferFolderFromPath path
      { stripApiPrefix := options.stripApiPrefix
        stripVersion := !options.groupByVersion
        maxDepth := options.maxDepth }
  else if options.strategy == "preserve-top-level" then
    match currentFolder with
    | some cf =>
      let topLevel := (splitChar '/' cf).headD ""
      let inferredSub := inferFolderFromPath path
        { stripApiPrefix := options.stripApiPrefix
          stripVersion := true
          maxDepth := options.maxDepth - 1 }
      topLevel ++ "/" ++ inferredSub
    | none =>
      inferFolderFromPath path
        { stripApiPrefix := options.stripApiPrefix
          stripVersion := !options.groupByVersion
          maxDepth := options.maxDepth }
  else if options.strategy == "flat" then
    flatFolderOf path
  else
    inferFolderFromPath path
      { stripApiPrefix := options.stripApiPrefix
        maxDepth := options.maxDepth }

/-- `if (!newFolder || newFolder.trim() === '') newFolder = 'Other'`. -/
def jsOtherCoerce (newFolder : String) : String :=
  if newFolder == "" || jsIsBlank newFolder then "Other" else newFolder

/-- The complete `newFolder` computation for one endpoint: the first custom
mapping whose prefix the path starts with wins, otherwise the strategy runs;
a blank result is coerced to `"Other"`. -/
def computeNewFolder (options : ReorgOptions) (path : String)
    (currentFolder : Option String) : String :=
  let raw :=
    match options.customMappings.find? (fun pm => strStartsWith path pm.1) with
    | some pm => pm.2
    | none => strategyFolder options path currentFolder
  jsOtherCoerce raw

/-- The three accumulators of the planning loop. -/
structure PlanAcc where
  changes : List Change := []
  unchanged : List UnchangedEntry := []
  proposedFolders : List (String × List Endpoint) := []
deriving DecidableEq

/-- One iteration of the planning loop of `proposeReorganization`. -/
def proposeStep (options : ReorgOptions) (acc : PlanAcc) (ep : Endpoint) :
    PlanAcc :=
  let currentFolder := currentFolderOf ep
  let newFolder := computeNewFolder options ep.path currentFolder
  let pf := pushAssoc acc.proposedFolders newFolder ep
  if currentFolder == some newFolder then
    { acc with
      unchanged := acc.unchanged ++
        [{ method := ep.method, path := ep.path, folder := currentFolder }]
      proposedFolders := pf }
  else
    { acc with
      changes := acc.changes ++
        [{ method := ep.method, path := ep.path, summary := ep.summary
           oldFolder := jsStrOrDefault currentFolder "(none)"
           newFolder := newFolder }]
      proposedFolders := pf }

/-- `proposeReorganization(endpoints, options)`. -/
def proposeReorganization (endpoints : List Endpoint)
    (options : ReorgOptions := {}) : ReorganizationPlan :=
  let acc := endpoints.foldl (proposeStep options) {}
  { strategy := options.strategy
    totalEndpoints := endpoints.length
    changesCount := acc.changes.length
    unchangedCount := acc.unchanged.length
    proposedFolders := acc.proposedFolders.map fun fe =>
      (fe.1, fe.2.map fun e =>
        { method := e.method, path := e.path, summary := e.summary })
    changes := acc.changes
    unchanged := acc.unchanged }

/-- First-match lookup in a JS-object association list (`obj[key]`). -/
def lookupA (l : List (String × α)) (k : String) : Option α :=
  match l with
  | [] => none
  | kv :: t => if kv.1 == k then some kv.2 else lookupA t k

/-- First-match update in a JS-object association list
(`obj[key] = f(obj[key])`; real JS objects have unique keys). -/
def updateAssoc (l : List (String × α)) (k : String) (f : α → α) :
    List (String × α) :=
  match l with
  | [] => []
  | kv :: t =>
    if kv.1 == k then (kv.1, f kv.2) :: t else kv :: updateAssoc t k f

/-- `spec.paths?.[path]?.[method]`. -/
def lookup2 (spec : Document) (path method : String) : Option Operation :=
  (lookupA spec.paths path).bind fun ms => lookupA ms method

/-- One iteration of `applyReorganization`'s loop: lower-case the change's
method, and when `(path, method)` resolves, overwrite that operation's
`x-apidog-folder`; otherwise leave the document alone.  The JSON round-trip
copy of the source is the identity on these pure values. -/
def applyChange (spec : Document) (change : Change) : Document :=
  match lookup2 spec change.path (strToLower change.method) with
  | some _ =>
    { paths := updateAssoc spec.paths change.path fun ms =>
        updateAssoc ms (strToLower change.method) fun op =>
          { op with xApidogFolder := some change.newFolder } }
  | none => spec

/-- `applyReorganization(spec, plan)`. -/
def applyReorganization (spec : Document) (plan : ReorganizationPlan) :
    Document :=
  plan.changes.foldl applyChange spec

/-! ### The structural diff engine (`deepDiff` of the diff utility) -/

/-- JSON-like values as produced by `JSON.parse`: insertion-ordered objects,
no `undefined` members. -/
inductive Json where
  | null : Json
  | bool : Bool → Json
  | num : Int → Json
  | str : String → Json
  | arr : List Json → Json
  | obj : List (String × Json) → Json

mutual

/-- Structural size of a JSON value, used as fuel for the diff recursion. -/
def jsonSize : Json → Nat
  | .null => 1
  | .bool _ => 1
  | .num _ => 1
  | .str _ => 1
  | .arr xs => 1 + jsonListSize xs
  | .obj kvs => 1 + jsonKvsSize kvs

def jsonListSize : List Json → Nat
  | [] => 0
  | x :: t => jsonSize x + jsonListSize t

def jsonKvsSize : List (String × Json) → Nat
  | [] => 0
  | kv :: t => jsonSize kv.2 + jsonKvsSize t

end

mutual

/-- Decidable equality of JSON values (the derived instance is unavailable
for this nested inductive). -/
def jsonDecEq : (a b : Json) → Decidable (a = b)
  | .null, .null => isTrue rfl
  | .bool a, .bool b =>
    match decEq a b with
    | isTrue h => isTrue (h ▸ rfl)
    | isFalse h => isFalse fun e => h (Json.bool.inj e)
  | .num a, .num b =>
    match decEq a b with
    | isTrue h => isTrue (h ▸ rfl)
    | isFalse h => isFalse fun e => h (Json.num.inj e)
  | .str a, .str b =>
    match decEq a b with
    | isTrue h => isTrue (h ▸ rfl)
    | isFalse h => isFalse fun e => h (Json.str.inj e)
  | .arr a, .arr b =>
    match jsonListDecEq a b with
    | isTrue h => isTrue (h ▸ rfl)
    | isFalse h => isFalse fun e => h (Json.arr.inj e)
  | .obj a, .obj b =>
    match jsonKvsDecEq a b with
    | isTrue h => isTrue (h ▸ rfl)
    | isFalse h => isFalse fun e => h (Json.obj.inj e)
  | .null, .bool _ => isFalse fun e => Json.noConfusion e
  | .null, .num _ => isFalse fun e => Json.noConfusion e
  | .null, .str _ => isFalse fun e => Json.noConfusion e
  | .null, .arr _ => isFalse fun e => Json.noConfusion e
  | .null, .obj _ => isFalse fun e => Json.noConfusion e
  | .bool _, .null => isFalse fun e => Json.noConfusion e
  | .bool _, .num _ => isFalse fun e => Json.noConfusion e
  | .bool _, .str _ => isFalse fun e => Json.noConfusion e
  | .bool _, .arr _ => isFalse fun e => Json.noConfusion e
  | .bool _, .obj _ => isFalse fun e => Json.noConfusion e
  | .num _, .null => isFalse fun e => Json.noConfusion e
  | .num _, .bool _ => isFalse fun e => Json.noConfusion e
  | .num _, .str _ => isFalse fun e => Json.noConfusion e
  | .num _, .arr _ => isFalse fun e => Json.noConfusion e
  | .num _, .obj _ => isFalse fun e => Json.noConfusion e
  | .str _, .null => isFalse fun e => Json.noConfusion e
  | .str _, .bool _ => isFalse fun e => Json.noConfusion e
  | .str _, .num _ => isFalse fun e => Json.noConfusion e
  | .str _, .arr _ => isFalse fun e => Json.noConfusion e
  | .str _, .obj _ => isFalse fun e => Json.noConfusion e
  | .arr _, .null => isFalse fun e => Json.noConfusion e
  | .arr _, .bool _ => isFalse fun e => Json.noConfusion e
  | .arr _, .num _ => isFalse fun e => Json.noConfusion e
  | .arr _, .str _ => isFalse fun e => Json.noConfusion e
  | .arr _, .obj _ => isFalse fun e => Json.noConfusion e
  | .obj _, .null => isFalse fun e => Json.noConfusion e
  | .obj _, .bool _ => isFalse fun e => Json.noConfusion e
  | .obj _, .num _ => isFalse fun e => Json.noConfusion e
  | .obj _, .str _ => isFalse fun e => Json.noConfusion e
  | .obj _, .arr _ => isFalse fun e => Json.noConfusion e

def jsonListDecEq : (a b : List Json) → Decidable (a = b)
  | [], [] => isTrue rfl
  | [], _ :: _ => isFalse fun e => List.noConfusion e
  | _ :: _, [] => isFalse fun e => List.noConfusion e
  | a :: as, b :: bs =>
    match jsonDecEq a b with
    | isFalse h => isFalse fun e => h (List.cons.inj e).1
    | isTrue h1 =>
      match jsonListDecEq as bs with
      | isTrue h2 => isTrue (h1 ▸ h2 ▸ rfl)
      | isFalse h => isFalse fun e => h (List.cons.inj e).2

def jsonKvsDecEq : (a b : List (String × Json)) → Decidable (a = b)
  | [], [] => isTrue rfl
  | [], _ :: _ => isFalse fun e => List.noConfusion e
  | _ :: _, [] => isFalse fun e => List.noConfusion e
  | (k1, v1) :: as, (k2, v2) :: bs =>
    match decEq k1 k2 with
    | isFalse h => isFalse fun e => h (congrArg Prod.fst (List.cons.inj e).1)
    | isTrue hk =>
      match jsonDecEq v1 v2 with
      | isFalse h => isFalse fun e => h (congrArg Prod.snd (List.cons.inj e).1)
      | isTrue hv =>
        match jsonKvsDecEq as bs with
        | isTrue ht => isTrue (hk ▸ hv ▸ ht ▸ rfl)
        | isFalse h => isFalse fun e => h (List.cons.inj e).2

end

instance : DecidableEq Json := jsonDecEq

/-- The own enumerable keys of a value, with their members: `Object.keys` of
an object is its insertion-ordered key list, of an array its index strings.
`deepDiff` only ever reaches this on objects and arrays (its recursion
guards on `typeof === 'object'`), so scalar cases are the empty list, which
is also what `Object.keys` yields for numbers and booleans. -/
def jsonKeys : Json → List (String × Json)
  | .obj kvs => kvs
  | .arr xs => xs.enum.map fun ix => (Nat.repr ix.1, ix.2)
  | _ => []

/-- `typeof v === 'object' && v !== null`. -/
def isObjLike : Json → Bool
  | .arr _ => true
  | .obj _ => true
  | _ => false

/-- `Array.isArray(v)`. -/
def isArr : Json → Bool
  | .arr _ => true
  | _ => false

/-- JS `===` as `deepDiff` uses it on the branch where at least one side is
a primitive or `null` (valid there: two non-null objects never reach that
branch, so the reference-equality cases are irrelevant and modelled as
`false`). -/
def jsStrictEq : Json → Json → Bool
  | .null, .null => true
  | .bool a, .bool b => a == b
  | .num a, .num b => a == b
  | .str a, .str b => a == b
  | _, _ => false

mutual
/-- `JSON.stringify(a) === JSON.stringify(b)`: on JSON-derived values with
insertion-ordered objects and no `undefined` members, stringify equality is
structural equality. -/
def jsonEqb : Json → Json → Bool
  | .null, .null => true
  | .bool a, .bool b => a == b
  | .num a, .num b => a == b
  | .str a, .str b => a == b
  | .arr a, .arr b => jsonListEqb a b
  | .obj a, .obj b => jsonKvsEqb a b
  | _, _ => false

def jsonListEqb : List Json → List Json → Bool
  | [], [] => true
  | a :: as, b :: bs => jsonEqb a b && jsonListEqb as bs
  | _, _ => false

def jsonKvsEqb : List (String × Json) → List (String × Json) → Bool
  | [], [] => true
  | a :: as, b :: bs => a.1 == b.1 && jsonEqb a.2 b.2 && jsonKvsEqb as bs
  | _, _ => false
end

/-- One field-level difference (`{type, path, value | oldValue+newValue}`). -/
inductive DiffChange where
  | added : String → Json → DiffChange
  | removed : String → Json → DiffChange
  | changed : String → Json → Json → DiffChange
deriving DecidableEq

/-- Keys in first-appearance order without duplicates, as iterating a JS
`Set` built from the concatenation yields. -/
def dedupKeysAux : List String → List String → List String
  | [], _ => []
  | k :: t, seen =>
    if seen.contains k then dedupKeysAux t seen else k :: dedupKeysAux t (k :: seen)

/-- `new Set([...Object.keys(oldObj), ...Object.keys(newObj)])`, iterated in
insertion order. -/
def unionKeys (a b : List String) : List String := dedupKeysAux (a ++ b) []

/-- `path ? `path.key` : key`. -/
def mkFullPath (path key : String) : String :=
  if path == "" then key else path ++ "." ++ key

/-- The per-key body of `deepDiff`, abstracted over the recursive call so
that the same text serves the fuelled evaluator and the fixpoint
characterisation: skip the vendor cross-link key, report keys present on
one side as `added`/`removed`, compare two arrays by stringify equality,
recurse on two non-null non-array objects, and otherwise compare by `===`. -/
def diffAtKeyGo (recur : Json → Json → String → List DiffChange)
    (oldKvs newKvs : List (String × Json)) (path key : String) :
    List DiffChange :=
  let fullPath := mkFullPath path key
  if key == "x-run-in-apidog" then []
  else
    match lookupA oldKvs key, lookupA newKvs key with
    | none, some v => [.added fullPath v]
    | some v, none => [.removed fullPath v]
    | none, none => []
    | some ov, some nv =>
      if isObjLike ov && isObjLike nv then
        if isArr ov && isArr nv then
          if jsonEqb ov nv then [] else [.changed fullPath ov nv]
        else recur ov nv fullPath
      else if jsStrictEq ov nv then [] else [.changed fullPath ov nv]

/-- Fuelled evaluator for `deepDiff`; the recursion of the source always
descends into members, so any fuel at least `jsonSize old + jsonSize new`
computes the fixpoint (`diffGo_congr` below). -/
def diffGo : Nat → Json → Json → String → List DiffChange
  | 0, _, _, _ => []
  | fuel + 1, oldObj, newObj, path =>
    (unionKeys ((jsonKeys oldObj).map Prod.fst)
        ((jsonKeys newObj).map Prod.fst)).flatMap
      (diffAtKeyGo (diffGo fuel) (jsonKeys oldObj) (jsonKeys newObj) path)

/-- `deepDiff(oldObj, newObj, path = '')`. -/
def deepDiff (oldObj newObj : Json) (path : String := "") : List DiffChange :=
  diffGo (jsonSize oldObj + jsonSize newObj) oldObj newObj path

/-- The per-key behaviour of `deepDiff` itself (shown to characterise it in
`deepDiff_eq_flatMap` below). -/
def diffAtKey (oldKvs newKvs : List (String × Json)) (path key : String) :
    List DiffChange :=
  diffAtKeyGo (fun ov nv fp => deepDiff ov nv fp) oldKvs newKvs path key

/-! ### Library lemmas about the association-list helpers -/

theorem pushAssoc_flatMap_perm (l : List (String × List α)) (k : String) (x : α) :
    List.Perm ((pushAssoc l k x).flatMap Prod.snd) (x :: l.flatMap Prod.snd) := by
  induction l with
  | nil => simp [pushAssoc]
  | cons kv t ih =>
    by_cases h : kv.1 = k
    · simp only [pushAssoc, h, beq_self_eq_true, if_true, List.flatMap_cons,
        List.append_assoc, List.singleton_append]
      exact List.perm_middle
    · simp only [pushAssoc, beq_iff_eq, h, if_false, List.flatMap_cons]
      exact (ih.append_left kv.2).trans List.perm_middle

/-- The loop of `analyzeFolders` distributes the processed endpoints over
the folder groups and the unfoldered list, preserving multiplicity. -/
theorem analyzeLoop_perm (eps : List Endpoint) :
    ∀ fs nf, List.Perm
      ((analyzeLoop eps (fs, nf)).1.flatMap Prod.snd ++ (analyzeLoop eps (fs, nf)).2)
      ((fs.flatMap Prod.snd ++ nf) ++ eps) := by
  induction eps with
  | nil => intro fs nf; simp [analyzeLoop]
  | cons ep rest ih =>
    intro fs nf
    cases h : currentFolderOf ep with
    | some f =>
      simp only [analyzeLoop, h]
      refine (ih _ _).trans ?_
      refine (((pushAssoc_flatMap_perm fs f ep).append_right nf).append_right
        rest).trans ?_
      have h2 : List.Perm ((fs.flatMap Prod.snd ++ nf) ++ ep :: rest)
          (ep :: ((fs.flatMap Prod.snd ++ nf) ++ rest)) := List.perm_middle
      simpa [List.append_assoc] using h2.symm
    | none =>
      simp only [analyzeLoop, h]
      refine (ih _ _).trans ?_
      simp [List.append_assoc]

/-! ### Characterisation of the planning loop -/

/-- The change the planning loop emits for one endpoint (`none` when the
endpoint keeps its folder). -/
def changeOf (options : ReorgOptions) (ep : Endpoint) : Option Change :=
  let cf := currentFolderOf ep
  let nf := computeNewFolder options ep.path cf
  if cf == some nf then none
  else some { method := ep.method, path := ep.path, summary := ep.summary
              oldFolder := jsStrOrDefault cf "(none)", newFolder := nf }

/-- The `unchanged` entry the planning loop emits for one endpoint. -/
def unchangedOf (options : ReorgOptions) (ep : Endpoint) :
    Option UnchangedEntry :=
  let cf := currentFolderOf ep
  let nf := computeNewFolder options ep.path cf
  if cf == some nf then some { method := ep.method, path := ep.path, folder := cf }
  else none

theorem proposeLoop_changes (options : ReorgOptions) (eps : List Endpoint) :
    ∀ acc : PlanAcc, (eps.foldl (proposeStep options) acc).changes
      = acc.changes ++ eps.filterMap (changeOf options) := by
  induction eps with
  | nil => intro acc; simp
  | cons ep rest ih =>
    intro acc
    rw [List.foldl_cons, ih]
    cases h : currentFolderOf ep == some (computeNewFolder options ep.path
        (currentFolderOf ep)) with
    | true => simp [proposeStep, changeOf, h]
    | false => simp [proposeStep, changeOf, h]

theorem proposeLoop_unchanged (options : ReorgOptions) (eps : List Endpoint) :
    ∀ acc : PlanAcc, (eps.foldl (proposeStep options) acc).unchanged
      = acc.unchanged ++ eps.filterMap (unchangedOf options) := by
  induction eps with
  | nil => intro acc; simp
  | cons ep rest ih =>
    intro acc
    rw [List.foldl_cons, ih]
    cases h : currentFolderOf ep == some (computeNewFolder options ep.path
        (currentFolderOf ep)) with
    | true => simp [proposeStep, unchangedOf, h]
    | false => simp [proposeStep, unchangedOf, h]

theorem proposeLoop_pf_perm (options : ReorgOptions) (eps : List Endpoint) :
    ∀ acc : PlanAcc, List.Perm
      ((eps.foldl (proposeStep options) acc).proposedFolders.flatMap Prod.snd)
      (acc.proposedFolders.flatMap Prod.snd ++ eps) := by
  induction eps with
  | nil => intro acc; simp
  | cons ep rest ih =>
    intro acc
    rw [List.foldl_cons]
    have hstep : (proposeStep options acc ep).proposedFolders =
        pushAssoc acc.proposedFolders
          (computeNewFolder options ep.path (currentFolderOf ep)) ep := by
      cases h : currentFolderOf ep == some (computeNewFolder options ep.path
          (currentFolderOf ep)) with
      | true => simp [proposeStep, h]
      | false => simp [proposeStep, h]
    refine (ih _).trans ?_
    rw [hstep]
    refine ((pushAssoc_flatMap_perm _ _ _).append_right rest).trans ?_
    simpa using List.perm_middle.symm

/-- Exactly one of `changeOf` and `unchangedOf` fires per endpoint. -/
theorem length_filterMap_changeOf_add (options : ReorgOptions)
    (eps : List Endpoint) :
    (eps.filterMap (changeOf options)).length +
      (eps.filterMap (unchangedOf options)).length = eps.length := by
  induction eps with
  | nil => simp
  | cons ep rest ih =>
    cases h : currentFolderOf ep == some (computeNewFolder options ep.path
        (currentFolderOf ep)) with
    | true => simp [changeOf, unchangedOf, h, ih]; omega
    | false => simp [changeOf, unchangedOf, h, ih]; omega

/-- Mapping the group payloads commutes with flattening an association
list of groups. -/
theorem flatMap_snd_map_groups (l : List (String × List α)) (g : α → β) :
    ((l.map fun fe => (fe.1, fe.2.map g)).flatMap Prod.snd)
      = (l.flatMap Prod.snd).map g := by
  induction l with
  | nil => simp
  | cons kv t ih => simp [ih]

/-! ### Claim theorems: FolderAnalyzer and planner invariants -/

/-- C8: `FolderAnalyzer.analyze` partitions its input — the folder groups
and the unfoldered list together contain exactly the input endpoints (as a
multiset, so every endpoint lands in exactly one of them), and
`totalEndpoints` equals the sum of the folder group sizes plus the size of
the unfoldered list. -/
theorem analyzeFolders_partitions (endpoints : List Endpoint) :
    List.Perm
      ((analyzeFolders endpoints).folders.flatMap Prod.snd ++
        (analyzeFolders endpoints).unfoldered) endpoints ∧
    (analyzeFolders endpoints).totalEndpoints =
      ((analyzeFolders endpoints).folders.map (fun fe => fe.2.length)).sum +
        (analyzeFolders endpoints).unfoldered.length := by
  have h := analyzeLoop_perm endpoints [] []
  simp only [List.flatMap_nil, List.nil_append] at h
  refine ⟨by simpa [analyzeFolders] using h, ?_⟩
  have hl := h.length_eq
  simp only [List.length_append, List.length_flatMap, Function.comp_def] at hl
  simp only [analyzeFolders, List.length_flatMap, Function.comp_def]
  omega

/-- C9: every plan satisfies `changesCount + unchangedCount =
totalEndpoints = |endpoints|`, and the `proposedFolders` lists together
hold exactly the input endpoints (projected to their summaries), so their
sizes also sum to `totalEndpoints`. -/
theorem propose_counts_partition (eps : List Endpoint) (options : ReorgOptions) :
    (proposeReorganization eps options).changesCount +
        (proposeReorganization eps options).unchangedCount =
      (proposeReorganization eps options).totalEndpoints ∧
    (proposeReorganization eps options).totalEndpoints = eps.length ∧
    List.Perm
      ((proposeReorganization eps options).proposedFolders.flatMap Prod.snd)
      (eps.map fun e =>
        ({ method := e.method, path := e.path, summary := e.summary } :
          EndpointSummary)) ∧
    ((proposeReorganization eps options).proposedFolders.map
        fun fe => fe.2.length).sum =
      (proposeReorganization eps options).totalEndpoints := by
  have hc := proposeLoop_changes options eps {}
  have hu := proposeLoop_unchanged options eps {}
  have hp := proposeLoop_pf_perm options eps {}
  simp only [PlanAcc.changes, PlanAcc.unchanged, PlanAcc.proposedFolders,
    List.nil_append, List.flatMap_nil] at hc hu hp
  have hperm : List.Perm
      ((proposeReorganization eps options).proposedFolders.flatMap Prod.snd)
      (eps.map fun e =>
        ({ method := e.method, path := e.path, summary := e.summary } :
          EndpointSummary)) := by
    simp only [proposeReorganization, flatMap_snd_map_groups]
    exact hp.map _
  refine ⟨?_, ?_, hperm, ?_⟩
  · simp only [proposeReorganization, hc, hu]
    exact length_filterMap_changeOf_add options eps
  · simp [proposeReorganization]
  · have hl := hp.length_eq
    simp only [List.length_flatMap, Function.comp_def] at hl
    simp only [proposeReorganization, List.map_map, Function.comp_def,
      List.length_map]
    exact hl

theorem propose_changes_eq (eps : List Endpoint) (options : ReorgOptions) :
    (proposeReorganization eps options).changes
      = eps.filterMap (changeOf options) := by
  have h := proposeLoop_changes options eps {}
  simpa [proposeReorganization] using h

theorem jsStrOrNull_ne_empty (x : Option String) : jsStrOrNull x ≠ some "" := by
  cases x with
  | none => simp [jsStrOrNull]
  | some s =>
    by_cases h : s = "" <;> simp [jsStrOrNull, h]

theorem currentFolderOf_ne_empty (ep : Endpoint) :
    currentFolderOf ep ≠ some "" := by
  unfold currentFolderOf
  cases h : jsStrOrNull ep.folder with
  | none => simpa [Option.orElse] using jsStrOrNull_ne_empty _
  | some s =>
    have := jsStrOrNull_ne_empty ep.folder
    rw [h] at this
    simpa [Option.orElse] using fun e => this (congrArg some e)

/-! ### Claim C5: the `oldFolder ≠ newFolder` invariant of changes -/

/-- C5 (amended): every change of a plan has `oldFolder ≠ newFolder`,
except that an endpoint with no current folder whose computed new folder is
the literal string `"(none)"` yields a change with
`oldFolder = newFolder = "(none)"`. -/
theorem change_oldFolder_ne_newFolder (eps : List Endpoint)
    (options : ReorgOptions) :
    ∀ c ∈ (proposeReorganization eps options).changes,
      c.oldFolder ≠ c.newFolder ∨
        (c.oldFolder = "(none)" ∧ c.newFolder = "(none)") := by
  intro c hc
  rw [propose_changes_eq] at hc
  obtain ⟨ep, _, hch⟩ := List.mem_filterMap.mp hc
  unfold changeOf at hch
  cases hcond : currentFolderOf ep == some (computeNewFolder options ep.path
      (currentFolderOf ep)) with
  | true => simp [hcond] at hch
  | false =>
    simp only [hcond, Bool.false_eq_true, if_false, Option.some.injEq] at hch
    subst hch
    cases hcf : currentFolderOf ep with
    | none =>
      by_cases hn : computeNewFolder options ep.path none = "(none)"
      · exact Or.inr ⟨by simp [jsStrOrDefault], hn⟩
      · exact Or.inl (by simpa [jsStrOrDefault] using Ne.symm hn)
    | some s =>
      rw [hcf] at hcond
      have hs : s ≠ "" := fun e => currentFolderOf_ne_empty ep (by rw [hcf, e])
      have hne : s ≠ computeNewFolder options ep.path (some s) := by
        intro e
        rw [← e] at hcond
        simp at hcond
      exact Or.inl (by simpa [jsStrOrDefault, hs] using hne)

/-- C5 counterexample: with no current folder and URL path `/(none)` the
inferred folder is the literal `"(none)"`, producing a change whose
`oldFolder` equals its `newFolder`. -/
theorem change_none_collision :
    ((proposeReorganization [{ method := "GET", path := "/(none)" }] {}).changes.map
      fun c => (c.oldFolder, c.newFolder)) = [("(none)", "(none)")] := by decide

theorem change_oldFolder_ne_newFolder_witness :
    ("(none)" : String) ≠ "Users" ∨
      (("(none)" : String) = "(none)" ∧ ("Users" : String) = "(none)") :=
  change_oldFolder_ne_newFolder [{ method := "GET", path := "/users" }] {}
    { method := "GET", path := "/users", summary := ""
      oldFolder := "(none)", newFolder := "Users" } (by decide)

/-! ### Claim C2: unknown strategy values -/

theorem computeNewFolder_unknown_strategy (options : ReorgOptions)
    (h1 : options.strategy ≠ "path-based")
    (h2 : options.strategy ≠ "preserve-top-level")
    (h3 : options.strategy ≠ "flat") (path : String) (cf : Option String) :
    computeNewFolder options path cf =
      computeNewFolder
        { options with strategy := "path-based", groupByVersion := true }
        path cf := by
  unfold computeNewFolder strategyFolder
  simp only [beq_iff_eq, h1, h2, h3, if_false, if_true, Bool.not_true]

/-- C2 (amended): an unknown strategy raises no error and yields the same
plan as strategy `path-based` with `groupByVersion := true` (version
segments kept, because the fallback branch does not pass `stripVersion`),
with the plan's `strategy` field echoing the unknown value. -/
theorem propose_unknown_strategy (eps : List Endpoint) (options : ReorgOptions)
    (h1 : options.strategy ≠ "path-based")
    (h2 : options.strategy ≠ "preserve-top-level")
    (h3 : options.strategy ≠ "flat") :
    proposeReorganization eps options =
      { proposeReorganization eps
          { options with strategy := "path-based", groupByVersion := true }
        with strategy := options.strategy } := by
  have hs : proposeStep options = proposeStep
      { options with strategy := "path-based", groupByVersion := true } := by
    funext acc ep
    simp only [proposeStep, computeNewFolder_unknown_strategy options h1 h2 h3]
  simp only [proposeReorganization, hs]

/-- C2 counterexample: with strategy `"bogus"` the planner keeps version
segments (the fallback branch omits `stripVersion`), so the plan differs
from the `path-based` one — here the proposed folder is `V1/Users` instead
of `Users` (and the `strategy` field differs too). -/
theorem propose_unknown_ne_path_based :
    proposeReorganization [{ method := "GET", path := "/v1/users" }]
        { strategy := "bogus" } ≠
      proposeReorganization [{ method := "GET", path := "/v1/users" }]
        { strategy := "path-based" } := by decide

theorem propose_unknown_strategy_witness :
    proposeReorganization [{ method := "GET", path := "/v1/users" }]
        { strategy := "bogus" } =
      { proposeReorganization [{ method := "GET", path := "/v1/users" }]
          { strategy := "path-based", groupByVersion := true }
        with strategy := "bogus" } :=
  propose_unknown_strategy [{ method := "GET", path := "/v1/users" }]
    { strategy := "bogus" } (by decide) (by decide) (by decide)

/-! ### Claim C4: the `flat` strategy's folder -/

/-- Space-joined title words (head letter upper-cased, remainder kept). -/
def titleWords : List String → String
  | [] => ""
  | [w] => capitalizeHead w
  | w :: t => capitalizeHead w ++ " " ++ titleWords t

/-- The folder the amended claim C4 describes for the `flat` strategy: the
first path segment that is non-empty, no brace parameter, not `api`
(case-insensitively) and not a `v<digits>` version segment, split on
hyphens with every word's first letter upper-cased (its remainder kept
unchanged) and the words joined by single spaces; `"Other"` when no such
segment exists. -/
def flatFolderSpecAmended (path : String) : String :=
  match (splitChar '/' path).find? (fun s =>
      s != "" && !(strHeadIs s '{') && strToLower s != "api" &&
        !(isVersionSegment s)) with
  | some s0 => titleWords (splitChar '-' s0)
  | none => "Other"

theorem head?_filter_eq_find? (p : α → Bool) (l : List α) :
    (l.filter p).head? = l.find? p := by
  induction l with
  | nil => rfl
  | cons a t ih => by_cases h : p a <;> simp [h, ih]

theorem joinSep_map_capitalizeHead (l : List String) :
    joinSep " " (l.map capitalizeHead) = titleWords l := by
  induction l with
  | nil => rfl
  | cons w t ih =>
    cases t with
    | nil => rfl
    | cons y t2 =>
      show capitalizeHead w ++ " " ++ joinSep " " ((y :: t2).map capitalizeHead)
        = capitalizeHead w ++ " " ++ titleWords (y :: t2)
      rw [ih]

theorem flatFolderOf_eq_spec (path : String) :
    flatFolderOf path = flatFolderSpecAmended path := by
  unfold flatFolderOf flatFolderSpecAmended
  rw [← head?_filter_eq_find?]
  cases h : ((splitChar '/' path).filter (fun s =>
      s != "" && !(strHeadIs s '{') && strToLower s != "api" &&
        !(isVersionSegment s))).head? with
  | none => rfl
  | some s0 => exact joinSep_map_capitalizeHead _

/-- C4 (amended): for every URL path the `flat` strategy (with no custom
mapping in the way) assigns the first path segment remaining after removing
brace-delimited parameter segments, `api` segments (case-insensitively) and
`v<digits>` version segments, title-cased by splitting the segment on
hyphens, upper-casing each word's first letter (leaving the remainder
unchanged) and joining the words with spaces — not as a single unsplit
word; when no such segment remains the folder is `"Other"` (a blank result
is also coerced to `"Other"`). -/
theorem flat_strategy_folder (options : ReorgOptions)
    (h1 : options.strategy = "flat") (h2 : options.customMappings = [])
    (path : String) (cf : Option String) :
    computeNewFolder options path cf = jsOtherCoerce (flatFolderSpecAmended path) := by
  unfold computeNewFolder strategyFolder
  rw [h2, h1, flatFolderOf_eq_spec]
  simp only [List.find?_nil]
  have ha : ("flat" == "path-based") = false := by decide
  have hb : ("flat" == "preserve-top-level") = false := by decide
  have hc : ("flat" == "flat") = true := by decide
  simp [ha, hb, hc]

/-- C4 counterexample: the `flat` strategy splits `validate-peppol-id` on
its hyphens (`Validate Peppol Id`), while the claim's single-word
title-casing (the source's own word capitalizer applied to the whole
segment) keeps them (`Validate-peppol-id`). -/
theorem flat_folder_hyphen_split :
    ((proposeReorganization [{ method := "POST", path := "/validate-peppol-id" }]
        { strategy := "flat" }).changes.map Change.newFolder)
        = ["Validate Peppol Id"] ∧
      capitalizeWord "validate-peppol-id" = "Validate-peppol-id" ∧
      ("Validate Peppol Id" : String) ≠ "Validate-peppol-id" := by decide

theorem flat_strategy_folder_witness :
    computeNewFolder { strategy := "flat" } "/validate-peppol-id" none =
      jsOtherCoerce (flatFolderSpecAmended "/validate-peppol-id") :=
  flat_strategy_folder { strategy := "flat" } (by decide) (by decide)
    "/validate-peppol-id" none

/-! ### Claim C6: the default inference examples -/

/-- C6: with default options the inferencer maps the three spec examples as
stated — `api` is stripped, the version segment is kept, parameters are
dropped, the hyphenated action tail is dropped, and the hyphen-free final
segment `login` is kept. -/
theorem inferFolderFromPath_examples :
    inferFolderFromPath "/api/v1/admin/billing/validate-peppol-id" {}
        = "V1/Admin/Billing" ∧
      inferFolderFromPath "/api/v1/users/{id}" {} = "V1/Users" ∧
      inferFolderFromPath "/auth/login" {} = "Auth/Login" := by decide

/-! ### Lookup and update lemmas for the applier -/

theorem lookupA_updateAssoc (l : List (String × α)) (k k' : String) (f : α → α) :
    lookupA (updateAssoc l k f) k' =
      if k' = k then (lookupA l k).map f else lookupA l k' := by
  induction l with
  | nil => by_cases h : k' = k <;> simp [updateAssoc, lookupA, h]
  | cons kv t ih =>
    by_cases hkv : kv.1 = k
    · subst hkv
      by_cases hk : k' = kv.1
      · subst hk
        simp [updateAssoc, lookupA]
      · have hsym : ¬ kv.1 = k' := fun e => hk e.symm
        simp [updateAssoc, lookupA, hk, hsym]
    · by_cases hk : k' = k
      · subst hk
        have hsym : ¬ kv.1 = k' := hkv
        simp [updateAssoc, lookupA, hkv, hsym, ih]
      · by_cases hv : kv.1 = k' <;>
          simp [updateAssoc, lookupA, hkv, hk, hv, ih]

theorem updateAssoc_map_fst (l : List (String × α)) (k : String) (f : α → α) :
    (updateAssoc l k f).map Prod.fst = l.map Prod.fst := by
  induction l with
  | nil => rfl
  | cons kv t ih =>
    by_cases h : kv.1 = k <;> simp [updateAssoc, h, ih]

theorem mem_nodup_lookupA (l : List (String × α)) (k : String) (v : α)
    (hm : (k, v) ∈ l) (hn : (l.map Prod.fst).Nodup) : lookupA l k = some v := by
  induction l with
  | nil => simp at hm
  | cons kv t ih =>
    simp only [List.map_cons, List.nodup_cons] at hn
    rcases List.mem_cons.mp hm with h | h
    · rw [← h]
      simp [lookupA]
    · have hk : ¬ kv.1 = k := by
        intro e
        exact hn.1 (e ▸ (List.mem_map.mpr ⟨(k, v), h, rfl⟩))
      simp [lookupA, hk, ih h hn.2]

/-! ### Claim C10: method lower-casing in the applier -/

/-- C10: processing one change lower-cases its method before resolving the
target: an unresolvable change leaves the document unchanged, while a
change whose method is the upper-cased form of a stored lower-case method
key (exactly what the planner emits, since `parseEndpoints` upper-cases
every stored method) updates the operation stored under the lower-case
key. -/
theorem applyChange_resolution (d : Document) (c : Change) :
    (lookup2 d c.path (strToLower c.method) = none → applyChange d c = d) ∧
    (∀ m op, httpMethods.contains m = true → c.method = strToUpper m →
      lookup2 d c.path m = some op →
      lookup2 (applyChange d c) c.path m =
        some { op with xApidogFolder := some c.newFolder }) ∧
    (∀ ep ∈ parseEndpoints d,
      ∃ m, httpMethods.contains m = true ∧ ep.method = strToUpper m) := by
  refine ⟨fun h => by simp [applyChange, h], ?_, ?_⟩
  · intro m op hm hcm hl
    have hmem : m ∈ httpMethods := List.mem_of_elem_eq_true hm
    have hround : strToLower c.method = m := by
      rw [hcm]
      simp only [httpMethods, List.mem_cons, List.not_mem_nil, or_false] at hmem
      rcases hmem with h | h | h | h | h | h | h <;> subst h <;> decide
    obtain ⟨ms, hms, hop⟩ : ∃ ms, lookupA d.paths c.path = some ms ∧
        lookupA ms m = some op := by
      unfold lookup2 at hl
      cases hp : lookupA d.paths c.path with
      | none => rw [hp] at hl; simp at hl
      | some ms => rw [hp] at hl; exact ⟨ms, rfl, hl⟩
    unfold applyChange
    rw [hround]
    have hl2 : lookup2 d c.path m = some op := hl
    simp only [hl2]
    unfold lookup2
    simp [lookupA_updateAssoc, hms, hop]
  · intro ep hep
    unfold parseEndpoints at hep
    obtain ⟨pm, _, hmem⟩ := List.mem_flatMap.mp hep
    obtain ⟨mo, hmo, hem⟩ := List.mem_map.mp hmem
    refine ⟨mo.1, (List.mem_filter.mp hmo).2, ?_⟩
    rw [← hem]
    rfl

theorem applyChange_resolution_witness :
    applyChange (⟨[("/a", [("get", {})])]⟩ : Document)
        { method := "GET", path := "/b", summary := ""
          oldFolder := "(none)", newFolder := "X" }
        = (⟨[("/a", [("get", {})])]⟩ : Document) ∧
      lookup2
        (applyChange (⟨[("/a", [("get", {})])]⟩ : Document)
          { method := "GET", path := "/a", summary := ""
            oldFolder := "(none)", newFolder := "F" })
        "/a" "get" = some { xApidogFolder := some "F" } ∧
      ∃ m, httpMethods.contains m = true ∧
        (parsedEndpoint "/a" "get" {}).method = strToUpper m :=
  ⟨(applyChange_resolution ⟨[("/a", [("get", {})])]⟩
      { method := "GET", path := "/b", summary := ""
        oldFolder := "(none)", newFolder := "X" }).1 (by decide),
    (applyChange_resolution ⟨[("/a", [("get", {})])]⟩
      { method := "GET", path := "/a", summary := ""
        oldFolder := "(none)", newFolder := "F" }).2.1 "get" {}
      (by decide) (by decide) (by decide),
    (applyChange_resolution ⟨[("/a", [("get", {})])]⟩
      { method := "GET", path := "/a", summary := ""
        oldFolder := "(none)", newFolder := "F" }).2.2
      (parsedEndpoint "/a" "get" {}) (by decide)⟩

/-! ### Claim C1: convergence of plan–apply–replan -/

/-- Every strategy except `preserve-top-level` computes the new folder from
the URL path alone, ignoring the endpoint's current folder. -/
theorem computeNewFolder_cf_irrel (options : ReorgOptions)
    (hstrat : options.strategy ≠ "preserve-top-level") (path : String)
    (cf cf' : Option String) :
    computeNewFolder options path cf = computeNewFolder options path cf' := by
  unfold computeNewFolder strategyFolder
  simp only [beq_iff_eq, hstrat, if_false]

/-- The planner's folder is never blank thanks to the `"Other"` coercion. -/
theorem computeNewFolder_ne_empty (options : ReorgOptions) (path : String)
    (cf : Option String) : computeNewFolder options path cf ≠ "" := by
  unfold computeNewFolder jsOtherCoerce
  cases h : ((match options.customMappings.find?
        (fun pm => strStartsWith path pm.1) with
      | some pm => pm.2
      | none => strategyFolder options path cf) == "" ||
        jsIsBlank (match options.customMappings.find?
          (fun pm => strStartsWith path pm.1) with
        | some pm => pm.2
        | none => strategyFolder options path cf)) with
  | true => simp [h]
  | false =>
    simp only [h, if_false, Bool.false_eq_true]
    intro e
    rw [e] at h
    simp at h

theorem jsStrOrNull_idem (x : Option String) :
    jsStrOrNull (jsStrOrNull x) = jsStrOrNull x := by
  cases x with
  | none => rfl
  | some s => by_cases h : s = "" <;> simp [jsStrOrNull, h]

theorem currentFolderOf_parsedEndpoint (p m : String) (op : Operation) :
    currentFolderOf (parsedEndpoint p m op) = jsStrOrNull op.xApidogFolder := by
  unfold currentFolderOf parsedEndpoint
  simp only [Option.some_bind]
  rw [jsStrOrNull_idem]
  cases h : jsStrOrNull op.xApidogFolder with
  | none => simp [Option.orElse]
  | some s => simp [Option.orElse]

theorem changeOf_eq_none_iff (options : ReorgOptions) (ep : Endpoint) :
    changeOf options ep = none ↔
      (currentFolderOf ep == some (computeNewFolder options ep.path
        (currentFolderOf ep))) = true := by
  unfold changeOf
  cases h : currentFolderOf ep == some (computeNewFolder options ep.path
      (currentFolderOf ep)) <;> simp [h]

theorem changeOf_some_fields (options : ReorgOptions) (ep : Endpoint)
    (c : Change) (h : changeOf options ep = some c) :
    c.path = ep.path ∧ c.method = ep.method ∧
      c.newFolder = computeNewFolder options ep.path (currentFolderOf ep) := by
  unfold changeOf at h
  cases hc : currentFolderOf ep == some (computeNewFolder options ep.path
      (currentFolderOf ep)) with
  | true => simp [hc] at h
  | false =>
    simp only [hc, Bool.false_eq_true, if_false, Option.some.injEq] at h
    subst h
    exact ⟨rfl, rfl, rfl⟩

theorem toLower_toUpper_httpMethod (m : String)
    (hm : httpMethods.contains m = true) : strToLower (strToUpper m) = m := by
  have hmem : m ∈ httpMethods := List.mem_of_elem_eq_true hm
  simp only [httpMethods, List.mem_cons, List.not_mem_nil, or_false] at hmem
  rcases hmem with h | h | h | h | h | h | h <;> subst h <;> decide

/-- How one change rewrites the operation stored at `(path, method)`. -/
def setFolderIfMatch (p m : String) (op : Operation) (c : Change) : Operation :=
  if c.path == p && strToLower c.method == m then
    { op with xApidogFolder := some c.newFolder }
  else op

theorem updateAssoc_eq_map_of_nodup (l : List (String × α)) (k : String)
    (f : α → α) (hn : (l.map Prod.fst).Nodup) :
    updateAssoc l k f = l.map fun kv => if kv.1 = k then (kv.1, f kv.2) else kv := by
  induction l with
  | nil => rfl
  | cons kv t ih =>
    simp only [List.map_cons, List.nodup_cons] at hn
    by_cases h : kv.1 = k
    · subst h
      have ht : t.map (fun kv' => if kv'.1 = kv.1 then (kv'.1, f kv'.2) else kv') = t := by
        have hp : ∀ kv' ∈ t, (if kv'.1 = kv.1 then (kv'.1, f kv'.2) else kv') = kv' := by
          intro kv' hm
          have hne : ¬ kv'.1 = kv.1 := by
            intro e
            exact hn.1 (by rw [← e]; exact List.mem_map.mpr ⟨kv', hm, rfl⟩)
          rw [if_neg hne]
        exact (List.map_congr_left hp).trans (List.map_id t)
      simp [updateAssoc, ht]
    · simp [updateAssoc, h, ih hn.2]

theorem applyChange_map_form (d : Document) (c : Change)
    (h1 : (d.paths.map Prod.fst).Nodup)
    (h2 : ∀ pm ∈ d.paths, (pm.2.map Prod.fst).Nodup) :
    applyChange d c = ⟨d.paths.map fun pm =>
      (pm.1, pm.2.map fun mo => (mo.1, setFolderIfMatch pm.1 mo.1 mo.2 c))⟩ := by
  cases hg : lookup2 d c.path (strToLower c.method) with
  | none =>
    have hid : ∀ pm ∈ d.paths,
        (pm.1, pm.2.map fun mo => (mo.1, setFolderIfMatch pm.1 mo.1 mo.2 c)) = pm := by
      intro pm hpm
      have hinner : ∀ mo ∈ pm.2, ((mo.1 : String), setFolderIfMatch pm.1 mo.1 mo.2 c) = mo := by
        intro mo hmo
        unfold setFolderIfMatch
        cases hcond : (c.path == pm.1 && strToLower c.method == mo.1) with
        | false => simp
        | true =>
          exfalso
          simp only [Bool.and_eq_true, beq_iff_eq] at hcond
          have hsome : lookup2 d c.path (strToLower c.method) = some mo.2 := by
            unfold lookup2
            rw [hcond.1, hcond.2, mem_nodup_lookupA d.paths pm.1 pm.2 hpm h1,
              Option.some_bind, mem_nodup_lookupA pm.2 mo.1 mo.2 hmo (h2 pm hpm)]
          rw [hsome] at hg
          exact Option.noConfusion hg
      calc (pm.1, pm.2.map fun mo => (mo.1, setFolderIfMatch pm.1 mo.1 mo.2 c))
          = (pm.1, pm.2) := by
            rw [(List.map_congr_left hinner).trans (List.map_id pm.2)]
        _ = pm := rfl
    unfold applyChange
    simp only [hg]
    calc d = ⟨d.paths⟩ := rfl
      _ = _ := by rw [(List.map_congr_left hid).trans (List.map_id d.paths)]
  | some op0 =>
    unfold applyChange
    simp only [hg]
    congr 1
    rw [updateAssoc_eq_map_of_nodup _ _ _ h1]
    refine List.map_congr_left ?_
    intro pm hpm
    by_cases hp : pm.1 = c.path
    · rw [if_pos hp]
      refine Prod.ext rfl ?_
      show updateAssoc pm.2 (strToLower c.method) _ = _
      rw [updateAssoc_eq_map_of_nodup _ _ _ (h2 pm hpm)]
      refine List.map_congr_left ?_
      intro mo hmo
      unfold setFolderIfMatch
      by_cases hm : mo.1 = strToLower c.method
      · rw [if_pos hm, if_pos]
        simp [hp, hm, beq_iff_eq]
      · rw [if_neg hm, if_neg]
        simp only [Bool.and_eq_true, beq_iff_eq, not_and]
        intro _ e
        exact hm e.symm
    · rw [if_neg hp]
      have : ∀ mo ∈ pm.2, ((mo.1 : String), setFolderIfMatch pm.1 mo.1 mo.2 c) = mo := by
        intro mo hmo
        unfold setFolderIfMatch
        rw [if_neg]
        simp only [Bool.and_eq_true, beq_iff_eq, not_and]
        intro e
        exact absurd e.symm hp
      calc pm = (pm.1, pm.2) := rfl
        _ = (pm.1, pm.2.map fun mo => (mo.1, setFolderIfMatch pm.1 mo.1 mo.2 c)) := by
            rw [(List.map_congr_left this).trans (List.map_id pm.2)]

theorem foldl_applyChange_map_form (cs : List Change) :
    ∀ d : Document, (d.paths.map Prod.fst).Nodup →
      (∀ pm ∈ d.paths, (pm.2.map Prod.fst).Nodup) →
      (cs.foldl applyChange d).paths =
        d.paths.map fun pm => (pm.1, pm.2.map fun mo =>
          (mo.1, cs.foldl (setFolderIfMatch pm.1 mo.1) mo.2)) := by
  induction cs with
  | nil =>
    intro d _ _
    simp
  | cons c rest ih =>
    intro d h1 h2
    rw [List.foldl_cons]
    have hstep := applyChange_map_form d c h1 h2
    have h1' : ((applyChange d c).paths.map Prod.fst).Nodup := by
      rw [hstep]
      simpa [List.map_map, Function.comp_def] using h1
    have h2' : ∀ pm ∈ (applyChange d c).paths, (pm.2.map Prod.fst).Nodup := by
      rw [hstep]
      intro pm hpm
      obtain ⟨pm0, hpm0, hpm0e⟩ := List.mem_map.mp hpm
      rw [← hpm0e]
      simpa [List.map_map, Function.comp_def] using h2 pm0 hpm0
    rw [ih _ h1' h2', hstep]
    simp [List.map_map, Function.comp_def]

theorem parseEndpoints_transform (d : Document)
    (t : String → String → Operation → Operation) :
    parseEndpoints ⟨d.paths.map fun pm =>
        (pm.1, pm.2.map fun mo => (mo.1, t pm.1 mo.1 mo.2))⟩ =
      d.paths.flatMap fun pm =>
        (pm.2.filter fun mo => httpMethods.contains mo.1).map fun mo =>
          parsedEndpoint pm.1 mo.1 (t pm.1 mo.1 mo.2) := by
  unfold parseEndpoints
  rw [List.flatMap_map]
  refine List.flatMap_congr ?_
  intro pm _
  rw [List.filter_map]
  rw [List.map_map]
  rfl

/-- The `(path, lower-cased method)` key of an endpoint, as the applier
resolves changes. -/
def epKey (ep : Endpoint) : String × String := (ep.path, strToLower ep.method)

theorem parse_keys_nodup (d : Document)
    (h1 : (d.paths.map Prod.fst).Nodup)
    (h2 : ∀ pm ∈ d.paths, (pm.2.map Prod.fst).Nodup) :
    ((parseEndpoints d).map epKey).Nodup := by
  unfold parseEndpoints
  rw [List.map_flatMap]
  rw [List.nodup_flatMap]
  constructor
  · intro pm hpm
    rw [List.map_map]
    have he : ∀ mo ∈ pm.2.filter (fun mo => httpMethods.contains mo.1),
        (epKey ∘ fun mo => parsedEndpoint pm.1 mo.1 mo.2) mo = (pm.1, mo.1) := by
      intro mo hmo
      have hc : httpMethods.contains mo.1 = true := (List.mem_filter.mp hmo).2
      simp only [Function.comp_apply, epKey, parsedEndpoint]
      rw [toLower_toUpper_httpMethod mo.1 hc]
    rw [List.map_congr_left he]
    have hsub : ((pm.2.filter fun mo => httpMethods.contains mo.1).map
        Prod.fst).Nodup :=
      ((List.filter_sublist pm.2).map Prod.fst).nodup (h2 pm hpm)
    have := hsub.map (f := fun m => ((pm.1, m) : String × String))
      (fun a b e => (Prod.mk.injEq _ _ _ _ ▸ e).2)
    simpa [List.map_map, Function.comp_def] using this
  · have hpw : d.paths.Pairwise fun a b => a.1 ≠ b.1 :=
      (List.pairwise_map.mp h1)
    refine hpw.imp ?_
    intro a b hne
    intro x hx hy
    obtain ⟨ep1, hep1, he1⟩ := List.mem_map.mp hx
    obtain ⟨mo1, _, hm1⟩ := List.mem_map.mp hep1
    obtain ⟨ep2, hep2, he2⟩ := List.mem_map.mp hy
    obtain ⟨mo2, _, hm2⟩ := List.mem_map.mp hep2
    apply hne
    have e1 : x.1 = a.1 := by rw [← he1, ← hm1]; rfl
    have e2 : x.1 = b.1 := by rw [← he2, ← hm2]; rfl
    rw [← e1, e2]

theorem foldl_setFolderIfMatch_filter (p m : String) (cs : List Change) :
    ∀ op : Operation, cs.foldl (setFolderIfMatch p m) op =
      (cs.filter fun c => c.path == p && strToLower c.method == m).foldl
        (fun o c => { o with xApidogFolder := some c.newFolder }) op := by
  induction cs with
  | nil => intro op; rfl
  | cons c rest ih =>
    intro op
    cases h : (c.path == p && strToLower c.method == m) with
    | true => simp [setFolderIfMatch, h, ih]
    | false => simp [setFolderIfMatch, h, ih]

theorem filter_filterMap_changeOf (options : ReorgOptions) (p m : String)
    (eps : List Endpoint) :
    (eps.filterMap (changeOf options)).filter
        (fun c => c.path == p && strToLower c.method == m) =
      (eps.filter fun ep => ep.path == p && strToLower ep.method == m).filterMap
        (changeOf options) := by
  induction eps with
  | nil => rfl
  | cons ep rest ih =>
    cases hch : changeOf options ep with
    | none =>
      cases hk : (ep.path == p && strToLower ep.method == m) with
      | true => simp [hch, hk, ih]
      | false => simp [hch, hk, ih]
    | some c =>
      have hf := changeOf_some_fields options ep c hch
      have hkey : (c.path == p && strToLower c.method == m)
          = (ep.path == p && strToLower ep.method == m) := by
        rw [hf.1, hf.2.1]
      cases hk : (ep.path == p && strToLower ep.method == m) with
      | true => simp [hch, hk, hkey, ih]
      | false => simp [hch, hk, hkey, ih]

theorem filter_key_singleton (ep₀ : Endpoint) (p m : String)
    (hp : ep₀.path = p) (hm : strToLower ep₀.method = m) :
    ∀ eps : List Endpoint, (eps.map epKey).Nodup → ep₀ ∈ eps →
      eps.filter (fun ep => ep.path == p && strToLower ep.method == m) = [ep₀] := by
  intro eps
  induction eps with
  | nil => intro _ h0; simp at h0
  | cons a t ih =>
    intro hN h0
    simp only [List.map_cons, List.nodup_cons] at hN
    rcases List.mem_cons.mp h0 with h | h
    · subst h
      have hpa : (ep₀.path == p && strToLower ep₀.method == m) = true := by
        simp [beq_iff_eq, hp, hm]
      have ht : t.filter (fun ep => ep.path == p && strToLower ep.method == m)
          = [] := by
        rw [List.filter_eq_nil_iff]
        intro x hx hcon
        simp only [Bool.and_eq_true, beq_iff_eq] at hcon
        apply hN.1
        have hk : epKey x = epKey ep₀ := by
          simp [epKey, hcon.1, hcon.2, hp, hm]
        rw [← hk]
        exact List.mem_map.mpr ⟨x, hx, rfl⟩
      simp [List.filter_cons, hpa, ht]
    · have hpa : (a.path == p && strToLower a.method == m) = false := by
        cases hc : (a.path == p && strToLower a.method == m) with
        | false => rfl
        | true =>
          exfalso
          simp only [Bool.and_eq_true, beq_iff_eq] at hc
          apply hN.1
          have hk : epKey ep₀ = epKey a := by
            simp [epKey, hc.1, hc.2, hp, hm]
          rw [← hk]
          exact List.mem_map.mpr ⟨ep₀, h, rfl⟩
      simp only [List.filter_cons, hpa, Bool.false_eq_true, if_false]
      exact ih hN.2 h

/-- C1 (amended): planning on a document's endpoints, applying the changes,
and re-planning on the endpoints parsed from the updated document yields an
empty `changes` list, for every options value whose strategy is not
`preserve-top-level` (the three remaining behaviours — `path-based`,
`flat`, and the silent fallback for unknown strategies — all derive the new
folder from the URL path alone).  The document is assumed to have the
unique path and method keys every JS object has. -/
theorem plan_apply_replan_converges (d : Document) (options : ReorgOptions)
    (hstrat : options.strategy ≠ "preserve-top-level")
    (h1 : (d.paths.map Prod.fst).Nodup)
    (h2 : ∀ pm ∈ d.paths, (pm.2.map Prod.fst).Nodup) :
    (proposeReorganization
      (parseEndpoints (applyReorganization d
        (proposeReorganization (parseEndpoints d) options))) options).changes
      = [] := by
  rw [propose_changes_eq, List.filterMap_eq_nil_iff]
  intro ep2 hep2
  have hform := foldl_applyChange_map_form
    (proposeReorganization (parseEndpoints d) options).changes d h1 h2
  have hd2 : applyReorganization d
      (proposeReorganization (parseEndpoints d) options)
      = ⟨d.paths.map fun pm => (pm.1, pm.2.map fun mo =>
          (mo.1, (proposeReorganization (parseEndpoints d) options).changes.foldl
            (setFolderIfMatch pm.1 mo.1) mo.2))⟩ :=
    congrArg Document.mk hform
  rw [hd2, parseEndpoints_transform d (fun p m op =>
    (proposeReorganization (parseEndpoints d) options).changes.foldl
      (setFolderIfMatch p m) op)] at hep2
  obtain ⟨pm, hpm, hmem⟩ := List.mem_flatMap.mp hep2
  obtain ⟨mo, hmo, hepe⟩ := List.mem_map.mp hmem
  subst hepe
  have hcm : httpMethods.contains mo.1 = true := (List.mem_filter.mp hmo).2
  have hround := toLower_toUpper_httpMethod mo.1 hcm
  have hep₀mem : parsedEndpoint pm.1 mo.1 mo.2 ∈ parseEndpoints d := by
    unfold parseEndpoints
    exact List.mem_flatMap.mpr ⟨pm, hpm, List.mem_map.mpr ⟨mo, hmo, rfl⟩⟩
  have hkeysN := parse_keys_nodup d h1 h2
  have hmatch : (proposeReorganization (parseEndpoints d) options).changes.filter
      (fun c => c.path == pm.1 && strToLower c.method == mo.1) =
      (changeOf options (parsedEndpoint pm.1 mo.1 mo.2)).toList := by
    rw [propose_changes_eq, filter_filterMap_changeOf]
    rw [filter_key_singleton (parsedEndpoint pm.1 mo.1 mo.2) pm.1 mo.1 rfl hround
      (parseEndpoints d) hkeysN hep₀mem]
    cases hch0 : changeOf options (parsedEndpoint pm.1 mo.1 mo.2) with
    | none => simp [List.filterMap_cons, hch0]
    | some c => simp [List.filterMap_cons, hch0]
  rw [foldl_setFolderIfMatch_filter, hmatch]
  cases hch : changeOf options (parsedEndpoint pm.1 mo.1 mo.2) with
  | none =>
    exact hch
  | some c =>
    obtain ⟨hcp, hcm2, hcn⟩ := changeOf_some_fields options _ c hch
    simp only [Option.toList_some, List.foldl_cons, List.foldl_nil]
    rw [changeOf_eq_none_iff]
    have hnf : c.newFolder ≠ "" := by
      rw [hcn]
      exact computeNewFolder_ne_empty options _ _
    have hjs : jsStrOrNull (some c.newFolder) = some c.newFolder := by
      simp [jsStrOrNull, hnf]
    have hcf2 : currentFolderOf (parsedEndpoint pm.1 mo.1
        { mo.2 with xApidogFolder := some c.newFolder }) = some c.newFolder := by
      rw [currentFolderOf_parsedEndpoint]
      exact hjs
    rw [hcf2]
    have hcomp : computeNewFolder options pm.1 (some c.newFolder)
        = c.newFolder := by
      rw [computeNewFolder_cf_irrel options hstrat pm.1 (some c.newFolder)
        (currentFolderOf (parsedEndpoint pm.1 mo.1 mo.2))]
      exact hcn.symm
    have hpath : (parsedEndpoint pm.1 mo.1
        { mo.2 with xApidogFolder := some c.newFolder }).path = pm.1 := rfl
    rw [hpath, hcomp]
    simp

/-- C1 counterexample: with strategy `preserve-top-level` the pipeline is
not idempotent — an endpoint `/auth/login` without a folder first receives
`Auth/Login`; the second planning run then prefixes the existing top level
again and proposes `Auth/Auth/Login`, a non-empty second change list. -/
theorem preserve_top_level_not_idempotent :
    (proposeReorganization
      (parseEndpoints (applyReorganization
        (⟨[("/auth/login", [("get", {})])]⟩ : Document)
        (proposeReorganization
          (parseEndpoints (⟨[("/auth/login", [("get", {})])]⟩ : Document))
          { strategy := "preserve-top-level" })))
      { strategy := "preserve-top-level" }).changes.map Change.newFolder
        = ["Auth/Auth/Login"] ∧
      (proposeReorganization
        (parseEndpoints (applyReorganization
          (⟨[("/auth/login", [("get", {})])]⟩ : Document)
          (proposeReorganization
            (parseEndpoints (⟨[("/auth/login", [("get", {})])]⟩ : Document))
            { strategy := "preserve-top-level" })))
        { strategy := "preserve-top-level" }).changes ≠ [] := by decide

theorem plan_apply_replan_converges_witness :
    (proposeReorganization
      (parseEndpoints (applyReorganization
        (⟨[("/auth/login", [("get", {})])]⟩ : Document)
        (proposeReorganization
          (parseEndpoints (⟨[("/auth/login", [("get", {})])]⟩ : Document)) {})))
      {}).changes = [] :=
  plan_apply_replan_converges ⟨[("/auth/login", [("get", {})])]⟩ {}
    (by decide) (by decide) (by decide)

/-! ### Claim C3: the diff engine on lists versus non-lists -/

theorem jsonSize_pos (j : Json) : 0 < jsonSize j := by
  cases j <;> simp [jsonSize]

theorem lookupA_mem (l : List (String × α)) (k : String) (v : α)
    (h : lookupA l k = some v) : ∃ k', (k', v) ∈ l := by
  induction l with
  | nil => simp [lookupA] at h
  | cons kv t ih =>
    unfold lookupA at h
    cases hk : (kv.1 == k) with
    | true =>
      rw [hk] at h
      simp only [if_true, Option.some.injEq] at h
      exact ⟨kv.1, by rw [← h]; exact List.mem_cons_self _ _⟩
    | false =>
      rw [hk] at h
      simp only [Bool.false_eq_true, if_false] at h
      obtain ⟨k', hm⟩ := ih h
      exact ⟨k', List.mem_cons_of_mem _ hm⟩

theorem jsonSize_le_of_mem_kvs (kvs : List (String × Json)) (k : String)
    (v : Json) (h : (k, v) ∈ kvs) : jsonSize v ≤ jsonKvsSize kvs := by
  induction kvs with
  | nil => simp at h
  | cons kv t ih =>
    rcases List.mem_cons.mp h with he | hm
    · have hv : v = kv.2 := congrArg Prod.snd he
      show jsonSize v ≤ jsonSize kv.2 + jsonKvsSize t
      rw [hv]
      omega
    · have := ih hm
      show jsonSize v ≤ jsonSize kv.2 + jsonKvsSize t
      omega

theorem jsonSize_le_of_mem_list (xs : List Json) (v : Json) (h : v ∈ xs) :
    jsonSize v ≤ jsonListSize xs := by
  induction xs with
  | nil => simp at h
  | cons x t ih =>
    rcases List.mem_cons.mp h with he | hm
    · show jsonSize v ≤ jsonSize x + jsonListSize t
      rw [he]
      omega
    · show jsonSize v ≤ jsonSize x + jsonListSize t
      have := ih hm
      omega

/-- A member reached through `jsonKeys` is strictly smaller than its
parent. -/
theorem jsonSize_lt_of_lookup (o : Json) (k : String) (v : Json)
    (h : lookupA (jsonKeys o) k = some v) : jsonSize v < jsonSize o := by
  cases o with
  | obj kvs =>
    obtain ⟨k', hm⟩ := lookupA_mem _ _ _ h
    have := jsonSize_le_of_mem_kvs kvs k' v hm
    show jsonSize v < 1 + jsonKvsSize kvs
    omega
  | arr xs =>
    obtain ⟨k', hm⟩ := lookupA_mem _ _ _ h
    obtain ⟨ix, hix, hixe⟩ := List.mem_map.mp hm
    have hvx : v ∈ xs := by
      have := List.snd_mem_of_mem_enum hix
      have hv : ix.2 = v := congrArg Prod.snd hixe
      rw [← hv]
      exact this
    have := jsonSize_le_of_mem_list xs v hvx
    show jsonSize v < 1 + jsonListSize xs
    omega
  | null => simp [jsonKeys, lookupA] at h
  | bool b => simp [jsonKeys, lookupA] at h
  | num i => simp [jsonKeys, lookupA] at h
  | str s => simp [jsonKeys, lookupA] at h

theorem diffAtKeyGo_congr (r1 r2 : Json → Json → String → List DiffChange)
    (oldKvs newKvs : List (String × Json)) (p k : String)
    (h : ∀ ov nv, lookupA oldKvs k = some ov → lookupA newKvs k = some nv →
      r1 ov nv (mkFullPath p k) = r2 ov nv (mkFullPath p k)) :
    diffAtKeyGo r1 oldKvs newKvs p k = diffAtKeyGo r2 oldKvs newKvs p k := by
  unfold diffAtKeyGo
  cases hk : (k == "x-run-in-apidog") with
  | true => simp [hk]
  | false =>
    simp only [hk, Bool.false_eq_true, if_false]
    cases h1 : lookupA oldKvs k with
    | none => cases h2 : lookupA newKvs k <;> rfl
    | some ov =>
      cases h2 : lookupA newKvs k with
      | none => rfl
      | some nv =>
        show (if isObjLike ov && isObjLike nv then _ else _)
          = (if isObjLike ov && isObjLike nv then _ else _)
        cases ho : (isObjLike ov && isObjLike nv) with
        | false => simp [ho]
        | true =>
          cases ha : (isArr ov && isArr nv) with
          | true => simp [ho, ha]
          | false => simp [ho, ha, h ov nv h1 h2]

theorem diffGo_congr : ∀ (f g : Nat) (o n : Json) (p : String),
    jsonSize o + jsonSize n ≤ f → jsonSize o + jsonSize n ≤ g →
    diffGo f o n p = diffGo g o n p := by
  intro f
  induction f with
  | zero =>
    intro g o n p hf _
    have := jsonSize_pos o
    omega
  | succ f ih =>
    intro g o n p hf hg
    cases g with
    | zero =>
      have := jsonSize_pos o
      omega
    | succ g =>
      show (unionKeys _ _).flatMap (diffAtKeyGo (diffGo f) _ _ p)
        = (unionKeys _ _).flatMap (diffAtKeyGo (diffGo g) _ _ p)
      refine List.flatMap_congr ?_
      intro k _
      refine diffAtKeyGo_congr _ _ _ _ p k ?_
      intro ov nv h1 h2
      have hov := jsonSize_lt_of_lookup o k ov h1
      have hnv := jsonSize_lt_of_lookup n k nv h2
      exact ih g ov nv (mkFullPath p k) (by omega) (by omega)

/-- The fuelled evaluator meets the per-key characterisation: `deepDiff`
processes the union of the two key lists and handles each key with
`diffAtKey` (whose recursive case calls `deepDiff` back). -/
theorem deepDiff_eq_flatMap (o n : Json) (p : String) :
    deepDiff o n p =
      (unionKeys ((jsonKeys o).map Prod.fst)
        ((jsonKeys n).map Prod.fst)).flatMap (diffAtKey (jsonKeys o) (jsonKeys n) p) := by
  unfold deepDiff
  obtain ⟨f, hf⟩ : ∃ f, jsonSize o + jsonSize n = f + 1 :=
    ⟨jsonSize o + jsonSize n - 1, by have := jsonSize_pos o; omega⟩
  rw [hf]
  show (unionKeys _ _).flatMap (diffAtKeyGo (diffGo f) _ _ p) = _
  refine List.flatMap_congr ?_
  intro k _
  refine diffAtKeyGo_congr _ _ _ _ p k ?_
  intro ov nv h1 h2
  have hov := jsonSize_lt_of_lookup o k ov h1
  have hnv := jsonSize_lt_of_lookup n k nv h2
  show diffGo f ov nv (mkFullPath p k)
    = diffGo (jsonSize ov + jsonSize nv) ov nv (mkFullPath p k)
  exact diffGo_congr f _ ov nv _ (by omega) (by omega)

/-- C3 (amended): at a key held by both objects where exactly one value is
a list and the other is a scalar or `null` (not an object), `deepDiff`
compares the two values by strict equality — which always fails across
those types — and emits exactly one `changed` entry for the key without
recursing; when the non-list side is instead a non-null object, the code
recurses into both values (the earlier `typeof === 'object'` branch wins),
so the single-`changed` behaviour of the claim does not apply there. -/
theorem diff_list_vs_scalar (o n : Json) (p k : String) (v1 v2 : Json)
    (hk : k ≠ "x-run-in-apidog")
    (h1 : lookupA (jsonKeys o) k = some v1)
    (h2 : lookupA (jsonKeys n) k = some v2)
    (hx : (isArr v1 = true ∧ isObjLike v2 = false) ∨
      (isObjLike v1 = false ∧ isArr v2 = true)) :
    deepDiff o n p =
      (unionKeys ((jsonKeys o).map Prod.fst)
        ((jsonKeys n).map Prod.fst)).flatMap
          (diffAtKey (jsonKeys o) (jsonKeys n) p) ∧
    diffAtKey (jsonKeys o) (jsonKeys n) p k
      = [.changed (mkFullPath p k) v1 v2] := by
  refine ⟨deepDiff_eq_flatMap o n p, ?_⟩
  unfold diffAtKey diffAtKeyGo
  have hkb : (k == "x-run-in-apidog") = false := by
    simp [hk]
  have hobj : (isObjLike v1 && isObjLike v2) = false := by
    rcases hx with ⟨_, hb⟩ | ⟨ha, _⟩
    · simp [hb]
    · simp [ha]
  have hst : jsStrictEq v1 v2 = false := by
    rcases hx with ⟨ha, _⟩ | ⟨_, hb⟩
    · cases v1 <;> simp [isArr] at ha ⊢
      cases v2 <;> rfl
    · cases v2 <;> simp [isArr] at hb ⊢
      cases v1 <;> rfl
  simp only [hkb, Bool.false_eq_true, if_false, h1, h2, hobj, hst]

/-- C3 counterexample: at key `k`, a list on one side and a non-list
*object* on the other makes `deepDiff` recurse (the list is walked as an
object keyed by indices), producing a `removed` and an `added` entry — not
the single `changed` entry the claim describes for every non-list. -/
theorem diff_list_vs_object_recurses :
    deepDiff (.obj [("k", .arr [.num 1])]) (.obj [("k", .obj [("a", .num 1)])]) ""
        = [.removed "k.0" (.num 1), .added "k.a" (.num 1)] ∧
      (deepDiff (.obj [("k", .arr [.num 1])])
        (.obj [("k", .obj [("a", .num 1)])]) "").length ≠ 1 := by decide

theorem diff_list_vs_scalar_witness :
    deepDiff (.obj [("k", .arr [.num 1])]) (.obj [("k", .str "x")]) ""
        = (unionKeys ((jsonKeys (.obj [("k", .arr [.num 1])])).map Prod.fst)
            ((jsonKeys (.obj [("k", .str "x")])).map Prod.fst)).flatMap
          (diffAtKey (jsonKeys (.obj [("k", .arr [.num 1])]))
            (jsonKeys (.obj [("k", .str "x")])) "") ∧
      diffAtKey (jsonKeys (.obj [("k", .arr [.num 1])]))
          (jsonKeys (.obj [("k", .str "x")])) "" "k"
        = [.changed (mkFullPath "" "k") (.arr [.num 1]) (.str "x")] :=
  diff_list_vs_scalar (.obj [("k", .arr [.num 1])]) (.obj [("k", .str "x")])
    "" "k" (.arr [.num 1]) (.str "x") (by decide) (by decide) (by decide)
    (Or.inl ⟨by decide, by decide⟩)

/-! ### Claim C7: the applier never mutates its document argument

`applyReorganization` mutates JS objects through references, so the claim
about mutation and sharing is stated over an explicit heap: a store of
addressed nodes.  The document root holds a reference to its `paths`
object, which maps path keys to references of method objects, which map
method keys to references of operation objects.  The JSON round-trip copy
allocates a fresh node for every level, and the loop then writes folder
values through the copy's references only. -/

/-- A mutable JS object relevant to the applier. -/
inductive Node where
  | root : Option Nat → Node
  | objN : List (String × Nat) → Node
  | opN : Operation → Node
deriving DecidableEq

/-- The heap: a fresh-address counter and the allocated cells. -/
structure Store where
  next : Nat
  mem : List (Nat × Node)
deriving DecidableEq

def lookupNat (l : List (Nat × α)) (k : Nat) : Option α :=
  match l with
  | [] => none
  | kv :: t => if kv.1 == k then some kv.2 else lookupNat t k

def updateNat (l : List (Nat × α)) (k : Nat) (f : α → α) : List (Nat × α) :=
  match l with
  | [] => []
  | kv :: t =>
    if kv.1 == k then (kv.1, f kv.2) :: t else kv :: updateNat t k f

def lookupStore (s : Store) (a : Nat) : Option Node := lookupNat s.mem a

/-- Overwrite the node stored at an existing address. -/
def setStore (s : Store) (a : Nat) (n : Node) : Store :=
  ⟨s.next, updateNat s.mem a fun _ => n⟩

/-- Allocate a fresh cell. -/
def alloc (s : Store) (n : Node) : Store × Nat :=
  (⟨s.next + 1, s.mem ++ [(s.next, n)]⟩, s.next)

/-- The addresses a node refers to. -/
def nodeRefs : Node → List Nat
  | .root (some pa) => [pa]
  | .root none => []
  | .objN l => l.map Prod.snd
  | .opN _ => []

/-- Every allocated cell lives below the counter and refers below it. -/
def storeWF (s : Store) : Prop :=
  ∀ kn ∈ s.mem, kn.1 < s.next ∧ ∀ r ∈ nodeRefs kn.2, r < s.next

/-- `s'` extends `s`: the counter has not decreased and every cell below
the old counter is untouched. -/
def storeExt (s s' : Store) : Prop :=
  s.next ≤ s'.next ∧ ∀ a, a < s.next → lookupStore s' a = lookupStore s a

/-- View a node as a document root. -/
def asRoot : Node → Option (Option Nat)
  | .root o => some o
  | _ => none

/-- View a node as a string-keyed object. -/
def asObj : Node → Option (List (String × Nat))
  | .objN l => some l
  | _ => none

/-- View a node as an operation. -/
def asOp : Node → Option Operation
  | .opN op => some op
  | _ => none

/-- Read a method object's operations back into a pure value. -/
def readMethods (s : Store) : List (String × Nat) →
    Option (List (String × Operation))
  | [] => some []
  | mo :: t =>
    ((lookupStore s mo.2).bind asOp).bind fun op =>
      (readMethods s t).map ((mo.1, op) :: ·)

/-- Read a paths object back into a pure value. -/
def readPaths (s : Store) : List (String × Nat) →
    Option (List (String × List (String × Operation)))
  | [] => some []
  | pe :: t =>
    ((lookupStore s pe.2).bind asObj).bind fun ms =>
      (readMethods s ms).bind fun ops =>
        (readPaths s t).map ((pe.1, ops) :: ·)

/-- Read the document stored at an address back into a pure value. -/
def readDoc (s : Store) (a : Nat) : Option Document :=
  (((lookupStore s a).bind asRoot).bind fun po => po).bind fun pa =>
    ((lookupStore s pa).bind asObj).bind fun ps =>
      (readPaths s ps).map Document.mk

/-- Allocate fresh operation cells for one path (the copy's inner level). -/
def allocMethods (s : Store) : List (String × Operation) →
    Store × List (String × Nat)
  | [] => (s, [])
  | mo :: t =>
    let sa := alloc s (.opN mo.2)
    let sr := allocMethods sa.1 t
    (sr.1, (mo.1, sa.2) :: sr.2)

/-- Allocate fresh method objects for every path (the copy's outer level). -/
def allocPaths (s : Store) : List (String × List (String × Operation)) →
    Store × List (String × Nat)
  | [] => (s, [])
  | pm :: t =>
    let sm := allocMethods s pm.2
    let sa := alloc sm.1 (.objN sm.2)
    let sr := allocPaths sa.1 t
    (sr.1, (pm.1, sa.2) :: sr.2)

/-- `JSON.parse(JSON.stringify(spec))`: build an entirely fresh copy of a
document value in the store. -/
def allocDoc (s : Store) (d : Document) : Store × Nat :=
  let sp := allocPaths s d.paths
  let sa := alloc sp.1 (.objN sp.2)
  let sr := alloc sa.1 (.root (some sa.2))
  (sr.1, sr.2)

/-- Resolve `spec.paths?.[path]?.[method]` through the heap to the address
of the operation cell. -/
def resolveOp (s : Store) (root : Nat) (p m : String) : Option Nat :=
  (((lookupStore s root).bind asRoot).bind fun po => po).bind fun pa =>
    ((lookupStore s pa).bind asObj).bind fun ps =>
      (lookupA ps p).bind fun ma =>
        ((lookupStore s ma).bind asObj).bind fun ms => lookupA ms m

/-- One loop iteration of the applier on the heap:
`updatedSpec.paths?.[path]?.[method]` resolved through references, and on
success the operation cell's `x-apidog-folder` overwritten in place. -/
def applyChangeS (root : Nat) (s : Store) (c : Change) : Store :=
  match resolveOp s root c.path (strToLower c.method) with
  | some oa =>
    match (lookupStore s oa).bind asOp with
    | some op =>
      setStore s oa (.opN { op with xApidogFolder := some c.newFolder })
    | none => s
  | none => s

/-- The applier on the heap: deep-copy the document at `a`, then run every
change against the copy; the argument's cells are never written. -/
def applyReorganizationS (s : Store) (a : Nat) (plan : ReorganizationPlan) :
    Store × Option Nat :=
  match readDoc s a with
  | none => (s, none)
  | some d =>
    let sc := allocDoc s d
    (plan.changes.foldl (applyChangeS sc.2) sc.1, some sc.2)

/-- The addresses of the method objects and operations hanging off one
path entry. -/
def pathEntryAddrs (s : Store) (pe : String × Nat) : List Nat :=
  pe.2 :: (((lookupStore s pe.2).bind asObj).map fun ms => ms.map Prod.snd).getD []

/-- The addresses making up the document graph rooted at `a`. -/
def docAddrs (s : Store) (a : Nat) : List Nat :=
  a ::
    ((((lookupStore s a).bind asRoot).bind fun po => po).map fun pa =>
      pa :: (((lookupStore s pa).bind asObj).map fun ps =>
        ps.flatMap (pathEntryAddrs s)).getD []).getD []

/-- The shape of a freshly copied document: every cell of its graph sits at
or above the watermark `w`, with the expected node type at each level. -/
def copyShape (s : Store) (w : Nat) (a1 : Nat) : Prop :=
  ∃ pa ps, w ≤ a1 ∧ lookupStore s a1 = some (.root (some pa)) ∧ w ≤ pa ∧
    lookupStore s pa = some (.objN ps) ∧
    ∀ pe ∈ ps, w ≤ pe.2 ∧ ∃ ms, lookupStore s pe.2 = some (.objN ms) ∧
      ∀ mo ∈ ms, w ≤ mo.2 ∧ ∃ op, lookupStore s mo.2 = some (.opN op)

theorem lookupNat_mem (l : List (Nat × α)) (k : Nat) (v : α)
    (h : lookupNat l k = some v) : (k, v) ∈ l := by
  induction l with
  | nil => simp [lookupNat] at h
  | cons kv t ih =>
    unfold lookupNat at h
    cases hk : (kv.1 == k) with
    | true =>
      rw [hk] at h
      simp only [if_true, Option.some.injEq] at h
      have hke : kv.1 = k := by simpa using hk
      have : kv = (k, v) := by
        calc kv = (kv.1, kv.2) := rfl
          _ = (k, v) := by rw [hke, h]
      rw [← this]
      exact List.mem_cons_self _ _
    | false =>
      rw [hk] at h
      simp only [Bool.false_eq_true, if_false] at h
      exact List.mem_cons_of_mem _ (ih h)

theorem lookupNat_updateNat (l : List (Nat × α)) (k k' : Nat) (f : α → α) :
    lookupNat (updateNat l k f) k' =
      if k' = k then (lookupNat l k).map f else lookupNat l k' := by
  induction l with
  | nil => by_cases h : k' = k <;> simp [updateNat, lookupNat, h]
  | cons kv t ih =>
    by_cases hkv : kv.1 = k
    · subst hkv
      by_cases hk : k' = kv.1
      · subst hk
        simp [updateNat, lookupNat]
      · have hsym : ¬ kv.1 = k' := fun e => hk e.symm
        simp [updateNat, lookupNat, hk, hsym]
    · by_cases hk : k' = k
      · subst hk
        have hsym : ¬ kv.1 = k' := hkv
        simp [updateNat, lookupNat, hkv, hsym, ih]
      · by_cases hv : kv.1 = k' <;>
          simp [updateNat, lookupNat, hkv, hk, hv, ih]

theorem lookupNat_append (l1 l2 : List (Nat × α)) (k : Nat) :
    lookupNat (l1 ++ l2) k =
      match lookupNat l1 k with
      | some v => some v
      | none => lookupNat l2 k := by
  induction l1 with
  | nil => simp [lookupNat]
  | cons kv t ih =>
    cases hk : (kv.1 == k) with
    | true => simp [lookupNat, hk]
    | false => simp [lookupNat, hk, ih]

theorem lookupNat_eq_none_of_ge (l : List (Nat × α)) (w k : Nat)
    (hb : ∀ kn ∈ l, kn.1 < w) (hk : w ≤ k) : lookupNat l k = none := by
  induction l with
  | nil => rfl
  | cons kv t ih =>
    have h1 := hb kv (List.mem_cons_self _ _)
    have hne : (kv.1 == k) = false := by
      simp only [beq_eq_false_iff_ne, ne_eq]
      omega
    simp only [lookupNat, hne, Bool.false_eq_true, if_false]
    exact ih fun kn hm => hb kn (List.mem_cons_of_mem _ hm)

theorem storeExt_refl (s : Store) : storeExt s s := ⟨Nat.le_refl _, fun _ _ => rfl⟩

theorem storeExt_trans {s1 s2 s3 : Store} (h1 : storeExt s1 s2)
    (h2 : storeExt s2 s3) : storeExt s1 s3 := by
  refine ⟨Nat.le_trans h1.1 h2.1, fun a ha => ?_⟩
  rw [h2.2 a (Nat.lt_of_lt_of_le ha h1.1), h1.2 a ha]

theorem alloc_ext (s : Store) (n : Node)
    (_hk : ∀ kn ∈ s.mem, kn.1 < s.next) : storeExt s (alloc s n).1 := by
  refine ⟨Nat.le_succ _, fun a ha => ?_⟩
  show lookupNat (s.mem ++ [(s.next, n)]) a = lookupNat s.mem a
  rw [lookupNat_append]
  cases h : lookupNat s.mem a with
  | some v => rfl
  | none =>
    have : (s.next == a) = false := by
      simp only [beq_eq_false_iff_ne, ne_eq]
      omega
    simp [lookupNat, this]

theorem alloc_lookup_new (s : Store) (n : Node)
    (hk : ∀ kn ∈ s.mem, kn.1 < s.next) :
    lookupStore (alloc s n).1 s.next = some n := by
  show lookupNat (s.mem ++ [(s.next, n)]) s.next = some n
  rw [lookupNat_append, lookupNat_eq_none_of_ge s.mem s.next s.next hk
    (Nat.le_refl _)]
  simp [lookupNat]

theorem alloc_wf (s : Store) (n : Node) (hwf : storeWF s)
    (hn : ∀ r ∈ nodeRefs n, r < s.next + 1) : storeWF (alloc s n).1 := by
  intro kn hm
  show kn.1 < s.next + 1 ∧ ∀ r ∈ nodeRefs kn.2, r < s.next + 1
  rcases List.mem_append.mp hm with h | h
  · have := hwf kn h
    exact ⟨by omega, fun r hr => by have := this.2 r hr; omega⟩
  · simp only [List.mem_singleton] at h
    subst h
    exact ⟨by omega, hn⟩

theorem setStore_lookup (s : Store) (a : Nat) (n : Node) (b : Nat) :
    lookupStore (setStore s a n) b =
      if b = a then (lookupStore s a).map (fun _ => n) else lookupStore s b := by
  show lookupNat (updateNat s.mem a fun _ => n) b = _
  rw [lookupNat_updateNat]
  rfl

theorem readMethods_agree (s s' : Store) (ms : List (String × Nat))
    (h : ∀ mo ∈ ms, lookupStore s' mo.2 = lookupStore s mo.2) :
    readMethods s' ms = readMethods s ms := by
  induction ms with
  | nil => rfl
  | cons mo t ih =>
    have h1 := h mo (List.mem_cons_self _ _)
    have h2 := ih fun x hx => h x (List.mem_cons_of_mem _ hx)
    simp only [readMethods, h1, h2]

theorem readPaths_agree (s s' : Store) (ps : List (String × Nat))
    (h : ∀ pe ∈ ps, lookupStore s' pe.2 = lookupStore s pe.2 ∧
      ∀ ms, lookupStore s pe.2 = some (.objN ms) →
        ∀ mo ∈ ms, lookupStore s' mo.2 = lookupStore s mo.2) :
    readPaths s' ps = readPaths s ps := by
  induction ps with
  | nil => rfl
  | cons pe t ih =>
    have h1 := (h pe (List.mem_cons_self _ _)).1
    have hrec := ih fun x hx => h x (List.mem_cons_of_mem _ hx)
    cases hpe : lookupStore s pe.2 with
    | none => simp only [readPaths, h1, hpe, Option.none_bind, Option.bind_none]
    | some node =>
      cases node with
      | root o => simp only [readPaths, h1, hpe, Option.some_bind, asObj,
          Option.none_bind]
      | opN op => simp only [readPaths, h1, hpe, Option.some_bind, asObj,
          Option.none_bind]
      | objN ms =>
        have h3 := readMethods_agree s s' ms
          ((h pe (List.mem_cons_self _ _)).2 ms hpe)
        simp only [readPaths, h1, hpe, Option.some_bind, asObj, h3, hrec]

/-- Inversion of a successful `readDoc`. -/
theorem readDoc_inv (s : Store) (a : Nat) (d : Document)
    (hr : readDoc s a = some d) :
    ∃ pa ps, lookupStore s a = some (.root (some pa)) ∧
      lookupStore s pa = some (.objN ps) ∧ readPaths s ps = some d.paths := by
  unfold readDoc at hr
  cases hra : lookupStore s a with
  | none => rw [hra] at hr; simp at hr
  | some node =>
    rw [hra] at hr
    cases node with
    | objN l => simp [asRoot] at hr
    | opN op => simp [asRoot] at hr
    | root o =>
      cases o with
      | none => simp [asRoot] at hr
      | some pa =>
        simp only [asRoot, Option.some_bind] at hr
        cases hpn : lookupStore s pa with
        | none => rw [hpn] at hr; simp at hr
        | some pnode =>
          rw [hpn] at hr
          cases pnode with
          | root o2 => simp [asObj] at hr
          | opN op => simp [asObj] at hr
          | objN ps =>
            simp only [asObj, Option.some_bind] at hr
            cases hps : readPaths s ps with
            | none => rw [hps] at hr; simp at hr
            | some l =>
              rw [hps] at hr
              simp only [Option.map_some', Option.some.injEq] at hr
              exact ⟨pa, ps, rfl, hpn, by rw [hps, ← hr]⟩

/-- Reads of a well-formed document survive any store extension: the
extension may only add or rewrite cells at or above the counter, which the
document's graph never reaches. -/
theorem readDoc_ext (s s' : Store) (a : Nat) (d : Document)
    (hwf : storeWF s) (hext : storeExt s s') (hr : readDoc s a = some d) :
    readDoc s' a = some d := by
  obtain ⟨pa, ps, hra, hpn, hps⟩ := readDoc_inv s a d hr
  have hwa := hwf (a, _) (lookupNat_mem _ _ _ hra)
  have hpa : pa < s.next := hwa.2 pa (by simp [nodeRefs])
  have hwpa := hwf (pa, _) (lookupNat_mem _ _ _ hpn)
  have hps' : readPaths s' ps = some d.paths := by
    rw [readPaths_agree s s' ps ?_]
    · exact hps
    · intro pe hpe
      have hpelt : pe.2 < s.next :=
        hwpa.2 pe.2 (List.mem_map.mpr ⟨pe, hpe, rfl⟩)
      refine ⟨hext.2 pe.2 hpelt, ?_⟩
      intro ms hms mo hmo
      have hwm := hwf (pe.2, .objN ms) (lookupNat_mem s.mem pe.2 _ hms)
      exact hext.2 mo.2 (hwm.2 mo.2 (List.mem_map.mpr ⟨mo, hmo, rfl⟩))
  unfold readDoc
  rw [hext.2 a hwa.1, hra]
  simp only [asRoot, Option.some_bind]
  rw [hext.2 pa hpa, hpn]
  simp only [asObj, Option.some_bind]
  rw [hps']
  rfl

theorem allocMethods_spec (ops : List (String × Operation)) :
    ∀ s : Store, storeWF s →
      storeWF (allocMethods s ops).1 ∧ storeExt s (allocMethods s ops).1 ∧
      ∀ mo ∈ (allocMethods s ops).2,
        s.next ≤ mo.2 ∧ mo.2 < (allocMethods s ops).1.next ∧
        ∃ op, lookupStore (allocMethods s ops).1 mo.2 = some (.opN op) := by
  induction ops with
  | nil =>
    intro s hwf
    exact ⟨hwf, storeExt_refl s, by simp [allocMethods]⟩
  | cons mo t ih =>
    intro s hwf
    have hkeys : ∀ kn ∈ s.mem, kn.1 < s.next := fun kn hm => (hwf kn hm).1
    have hwf1 : storeWF (alloc s (.opN mo.2)).1 :=
      alloc_wf s _ hwf (by simp [nodeRefs])
    have hext1 : storeExt s (alloc s (.opN mo.2)).1 := alloc_ext s _ hkeys
    obtain ⟨hwf2, hext2, hmem2⟩ := ih (alloc s (.opN mo.2)).1 hwf1
    have hnext1 : (alloc s (.opN mo.2)).1.next = s.next + 1 := rfl
    refine ⟨hwf2, storeExt_trans hext1 hext2, ?_⟩
    intro mo' hm'
    have hm'' : mo' = (mo.1, s.next) ∨
        mo' ∈ (allocMethods (alloc s (.opN mo.2)).1 t).2 := List.mem_cons.mp hm'
    rcases hm'' with he | hm
    · subst he
      refine ⟨Nat.le_refl _, ?_, mo.2, ?_⟩
      · show s.next < (allocMethods (alloc s (.opN mo.2)).1 t).1.next
        have h1 := hext2.1
        omega
      · show lookupStore (allocMethods (alloc s (.opN mo.2)).1 t).1 s.next
          = some (.opN mo.2)
        rw [hext2.2 s.next (by omega)]
        exact alloc_lookup_new s _ hkeys
    · obtain ⟨hge, hlt, op, hop⟩ := hmem2 mo' hm
      exact ⟨by omega, hlt, op, hop⟩

theorem allocPaths_spec (pss : List (String × List (String × Operation))) :
    ∀ s : Store, storeWF s →
      storeWF (allocPaths s pss).1 ∧ storeExt s (allocPaths s pss).1 ∧
      ∀ pe ∈ (allocPaths s pss).2,
        s.next ≤ pe.2 ∧ pe.2 < (allocPaths s pss).1.next ∧
        ∃ ms, lookupStore (allocPaths s pss).1 pe.2 = some (.objN ms) ∧
          ∀ mo ∈ ms, s.next ≤ mo.2 ∧
            ∃ op, lookupStore (allocPaths s pss).1 mo.2 = some (.opN op) := by
  induction pss with
  | nil =>
    intro s hwf
    exact ⟨hwf, storeExt_refl s, by simp [allocPaths]⟩
  | cons pm t ih =>
    intro s hwf
    obtain ⟨hwf1, hext1, hment⟩ := allocMethods_spec pm.2 s hwf
    have hkeys1 : ∀ kn ∈ (allocMethods s pm.2).1.mem,
        kn.1 < (allocMethods s pm.2).1.next := fun kn hm => (hwf1 kn hm).1
    have hwf2 : storeWF (alloc (allocMethods s pm.2).1
        (.objN (allocMethods s pm.2).2)).1 := by
      refine alloc_wf _ _ hwf1 ?_
      intro r hr
      simp only [nodeRefs, List.mem_map] at hr
      obtain ⟨mo, hmo, he⟩ := hr
      have := (hment mo hmo).2.1
      omega
    have hext2 : storeExt (allocMethods s pm.2).1
        (alloc (allocMethods s pm.2).1 (.objN (allocMethods s pm.2).2)).1 :=
      alloc_ext _ _ hkeys1
    obtain ⟨hwf3, hext3, hrest⟩ := ih _ hwf2
    have hnext2 : (alloc (allocMethods s pm.2).1
        (.objN (allocMethods s pm.2).2)).1.next
        = (allocMethods s pm.2).1.next + 1 := rfl
    refine ⟨hwf3, storeExt_trans hext1 (storeExt_trans hext2 hext3), ?_⟩
    intro pe hpe
    have hpe' : pe = (pm.1, (allocMethods s pm.2).1.next) ∨
        pe ∈ (allocPaths (alloc (allocMethods s pm.2).1
          (.objN (allocMethods s pm.2).2)).1 t).2 := List.mem_cons.mp hpe
    rcases hpe' with he | hm
    · subst he
      refine ⟨hext1.1, ?_, (allocMethods s pm.2).2, ?_, ?_⟩
      · show (allocMethods s pm.2).1.next <
          (allocPaths (alloc (allocMethods s pm.2).1
            (.objN (allocMethods s pm.2).2)).1 t).1.next
        have h1 := hext3.1
        omega
      · show lookupStore (allocPaths (alloc (allocMethods s pm.2).1
            (.objN (allocMethods s pm.2).2)).1 t).1
            (allocMethods s pm.2).1.next = some (.objN (allocMethods s pm.2).2)
        rw [hext3.2 (allocMethods s pm.2).1.next (by omega)]
        exact alloc_lookup_new _ _ hkeys1
      · intro mo hmo
        obtain ⟨hge, hlt, op, hop⟩ := hment mo hmo
        refine ⟨hge, op, ?_⟩
        show lookupStore (allocPaths (alloc (allocMethods s pm.2).1
            (.objN (allocMethods s pm.2).2)).1 t).1 mo.2 = some (.opN op)
        rw [hext3.2 mo.2 (by omega), hext2.2 mo.2 (by omega)]
        exact hop
    · obtain ⟨hge, hlt, ms, hms, hin⟩ := hrest pe hm
      have h1 := hext1.1
      refine ⟨by omega, hlt, ms, hms, ?_⟩
      intro mo hmo
      obtain ⟨hge2, op, hop⟩ := hin mo hmo
      exact ⟨by omega, op, hop⟩

theorem allocDoc_spec (s : Store) (d : Document) (hwf : storeWF s) :
    storeWF (allocDoc s d).1 ∧ storeExt s (allocDoc s d).1 ∧
      copyShape (allocDoc s d).1 s.next (allocDoc s d).2 := by
  obtain ⟨hwf1, hext1, hps⟩ := allocPaths_spec d.paths s hwf
  have hkeys1 : ∀ kn ∈ (allocPaths s d.paths).1.mem,
      kn.1 < (allocPaths s d.paths).1.next := fun kn hm => (hwf1 kn hm).1
  have hwf2 : storeWF (alloc (allocPaths s d.paths).1
      (.objN (allocPaths s d.paths).2)).1 := by
    refine alloc_wf _ _ hwf1 ?_
    intro r hr
    simp only [nodeRefs, List.mem_map] at hr
    obtain ⟨pe, hpe, he⟩ := hr
    have := (hps pe hpe).2.1
    omega
  have hext2 : storeExt (allocPaths s d.paths).1
      (alloc (allocPaths s d.paths).1 (.objN (allocPaths s d.paths).2)).1 :=
    alloc_ext _ _ hkeys1
  have hkeys2 : ∀ kn ∈ (alloc (allocPaths s d.paths).1
      (.objN (allocPaths s d.paths).2)).1.mem,
      kn.1 < (alloc (allocPaths s d.paths).1
        (.objN (allocPaths s d.paths).2)).1.next :=
    fun kn hm => (hwf2 kn hm).1
  have hwf3 : storeWF (allocDoc s d).1 := by
    refine alloc_wf _ _ hwf2 ?_
    intro r hr
    simp only [nodeRefs, List.mem_singleton] at hr
    subst hr
    show (allocPaths s d.paths).1.next <
      (alloc (allocPaths s d.paths).1 (.objN (allocPaths s d.paths).2)).1.next + 1
    have : (alloc (allocPaths s d.paths).1
        (.objN (allocPaths s d.paths).2)).1.next
        = (allocPaths s d.paths).1.next + 1 := rfl
    omega
  have hext3 : storeExt (alloc (allocPaths s d.paths).1
      (.objN (allocPaths s d.paths).2)).1 (allocDoc s d).1 :=
    alloc_ext _ _ hkeys2
  refine ⟨hwf3, storeExt_trans hext1 (storeExt_trans hext2 hext3), ?_⟩
  have hnext2 : (alloc (allocPaths s d.paths).1
      (.objN (allocPaths s d.paths).2)).1.next
      = (allocPaths s d.paths).1.next + 1 := rfl
  refine ⟨(allocPaths s d.paths).1.next, (allocPaths s d.paths).2,
    ?_, ?_, ?_, ?_, ?_⟩
  · have := hext1.1
    show s.next ≤ (alloc (allocPaths s d.paths).1
      (.objN (allocPaths s d.paths).2)).1.next
    omega
  · exact alloc_lookup_new _ _ hkeys2
  · have := hext1.1
    omega
  · show lookupStore (allocDoc s d).1 (allocPaths s d.paths).1.next
      = some (.objN (allocPaths s d.paths).2)
    rw [hext3.2 (allocPaths s d.paths).1.next (by omega)]
    exact alloc_lookup_new _ _ hkeys1
  · intro pe hpe
    obtain ⟨hge, hlt, ms, hms, hin⟩ := hps pe hpe
    refine ⟨hge, ms, ?_, ?_⟩
    · rw [hext3.2 pe.2 (by omega), hext2.2 pe.2 (by omega)]
      exact hms
    · intro mo hmo
      obtain ⟨hge2, op, hop⟩ := hin mo hmo
      have hmolt : mo.2 < (allocPaths s d.paths).1.next := by
        obtain ⟨opn, hopn⟩ : ∃ n, lookupStore (allocPaths s d.paths).1 mo.2
            = some n := ⟨_, hop⟩
        exact (hwf1 (mo.2, opn) (lookupNat_mem _ _ _ hopn)).1
      refine ⟨hge2, op, ?_⟩
      rw [hext3.2 mo.2 (by omega), hext2.2 mo.2 (by omega)]
      exact hop

/-- One heap-level change only rewrites an operation cell of the copy (an
address at or above the watermark), so both the copy's shape and the
untouchedness of everything below the watermark are preserved. -/
theorem applyChangeS_preserves (s0 s : Store) (a1 : Nat) (c : Change)
    (hsh : copyShape s s0.next a1) (hext : storeExt s0 s) :
    copyShape (applyChangeS a1 s c) s0.next a1 ∧
      storeExt s0 (applyChangeS a1 s c) := by
  obtain ⟨pa, ps, ha1, hroot, hpaW, hpaN, hps⟩ := hsh
  cases hres0 : resolveOp s a1 c.path (strToLower c.method) with
  | none =>
    have happ : applyChangeS a1 s c = s := by
      simp only [applyChangeS, hres0]
    rw [happ]
    exact ⟨⟨pa, ps, ha1, hroot, hpaW, hpaN, hps⟩, hext⟩
  | some oa =>
    have hres := hres0
    simp only [resolveOp, hroot, hpaN, Option.some_bind, asRoot, asObj] at hres
    cases hma : lookupA ps c.path with
    | none => rw [hma] at hres; simp at hres
    | some ma =>
      rw [hma] at hres
      simp only [Option.some_bind] at hres
      obtain ⟨k1, hk1⟩ := lookupA_mem ps c.path ma hma
      obtain ⟨hmaW, ms, hmsN, hmsIn⟩ := hps (k1, ma) hk1
      rw [hmsN] at hres
      simp only [Option.some_bind, asObj] at hres
      obtain ⟨k2, hk2⟩ := lookupA_mem ms _ oa hres
      obtain ⟨hoaW, op0, hop0⟩ := hmsIn (k2, oa) hk2
      have happ : applyChangeS a1 s c =
          setStore s oa (.opN { op0 with xApidogFolder := some c.newFolder }) := by
        simp only [applyChangeS, hres0, hop0, Option.some_bind, asOp]
      rw [happ]
      have hne1 : a1 ≠ oa := by
        intro e
        rw [e, hop0] at hroot
        cases hroot
      have hne2 : pa ≠ oa := by
        intro e
        rw [e, hop0] at hpaN
        cases hpaN
      constructor
      · refine ⟨pa, ps, ha1, ?_, hpaW, ?_, ?_⟩
        · rw [setStore_lookup, if_neg hne1]
          exact hroot
        · rw [setStore_lookup, if_neg hne2]
          exact hpaN
        · intro pe hpe
          obtain ⟨hpeW, ms', hms', hin'⟩ := hps pe hpe
          have hnep : pe.2 ≠ oa := by
            intro e
            rw [e, hop0] at hms'
            cases hms'
          refine ⟨hpeW, ms', by rw [setStore_lookup, if_neg hnep]; exact hms', ?_⟩
          intro mo hmo
          obtain ⟨hmoW, op', hop'⟩ := hin' mo hmo
          by_cases hmoe : mo.2 = oa
          · refine ⟨hmoW, { op0 with xApidogFolder := some c.newFolder }, ?_⟩
            rw [setStore_lookup, if_pos hmoe,
              show lookupStore s oa = some (.opN op0) from hop0]
            rfl
          · exact ⟨hmoW, op', by rw [setStore_lookup, if_neg hmoe]; exact hop'⟩
      · refine ⟨hext.1, ?_⟩
        intro b hb
        rw [setStore_lookup, if_neg (by omega : ¬ b = oa)]
        exact hext.2 b hb

theorem foldl_applyChangeS_preserves (s0 : Store) (a1 : Nat)
    (cs : List Change) :
    ∀ s : Store, copyShape s s0.next a1 → storeExt s0 s →
      copyShape (cs.foldl (applyChangeS a1) s) s0.next a1 ∧
        storeExt s0 (cs.foldl (applyChangeS a1) s) := by
  induction cs with
  | nil => intro s hsh hext; exact ⟨hsh, hext⟩
  | cons c rest ih =>
    intro s hsh hext
    obtain ⟨hsh', hext'⟩ := applyChangeS_preserves s0 s a1 c hsh hext
    exact ih _ hsh' hext'

theorem readMethods_isSome (s : Store) (ms : List (String × Nat))
    (h : ∀ mo ∈ ms, ∃ op, lookupStore s mo.2 = some (.opN op)) :
    (readMethods s ms).isSome = true := by
  induction ms with
  | nil => rfl
  | cons mo t ih =>
    obtain ⟨op, hop⟩ := h mo (List.mem_cons_self _ _)
    have ht := ih fun x hx => h x (List.mem_cons_of_mem _ hx)
    obtain ⟨l, hl⟩ := Option.isSome_iff_exists.mp ht
    simp [readMethods, hop, asOp, hl]

theorem readPaths_isSome (s : Store) (ps : List (String × Nat))
    (h : ∀ pe ∈ ps, ∃ ms, lookupStore s pe.2 = some (.objN ms) ∧
      ∀ mo ∈ ms, ∃ op, lookupStore s mo.2 = some (.opN op)) :
    (readPaths s ps).isSome = true := by
  induction ps with
  | nil => rfl
  | cons pe t ih =>
    obtain ⟨ms, hms, hin⟩ := h pe (List.mem_cons_self _ _)
    have hms2 := readMethods_isSome s ms hin
    obtain ⟨ops, hops⟩ := Option.isSome_iff_exists.mp hms2
    have ht := ih fun x hx => h x (List.mem_cons_of_mem _ hx)
    obtain ⟨l, hl⟩ := Option.isSome_iff_exists.mp ht
    simp [readPaths, hms, asObj, hops, hl]

theorem copyShape_readDoc_isSome (s : Store) (w a1 : Nat)
    (h : copyShape s w a1) : (readDoc s a1).isSome = true := by
  obtain ⟨pa, ps, _, hroot, _, hpaN, hps⟩ := h
  have hps2 := readPaths_isSome s ps fun pe hpe => by
    obtain ⟨_, ms, hms, hin⟩ := hps pe hpe
    exact ⟨ms, hms, fun mo hmo => (hin mo hmo).2⟩
  obtain ⟨l, hl⟩ := Option.isSome_iff_exists.mp hps2
  simp [readDoc, hroot, asRoot, hpaN, asObj, hl]

theorem docAddrs_lt (s : Store) (a : Nat) (hwf : storeWF s) (n0 : Node)
    (ha : lookupStore s a = some n0) : ∀ x ∈ docAddrs s a, x < s.next := by
  intro x hx
  unfold docAddrs at hx
  rw [ha] at hx
  have hwa := hwf (a, n0) (lookupNat_mem _ _ _ ha)
  rcases List.mem_cons.mp hx with he | ht
  · subst he
    exact hwa.1
  · cases n0 with
    | objN l => simp [asRoot] at ht
    | opN op => simp [asRoot] at ht
    | root o =>
      cases o with
      | none => simp [asRoot] at ht
      | some pa =>
        have hpa : pa < s.next := hwa.2 pa (by simp [nodeRefs])
        simp only [asRoot, Option.some_bind, Option.map_some',
          Option.getD_some] at ht
        rcases List.mem_cons.mp ht with he2 | ht2
        · subst he2
          exact hpa
        · cases hpn : lookupStore s pa with
          | none => rw [hpn] at ht2; simp at ht2
          | some pnode =>
            rw [hpn] at ht2
            have hwpa := hwf (pa, pnode) (lookupNat_mem _ _ _ hpn)
            cases pnode with
            | root o2 => simp [asObj] at ht2
            | opN op => simp [asObj] at ht2
            | objN ps =>
              simp only [asObj, Option.some_bind, Option.map_some',
                Option.getD_some] at ht2
              obtain ⟨pe, hpe, hxa⟩ := List.mem_flatMap.mp ht2
              unfold pathEntryAddrs at hxa
              have hpelt : pe.2 < s.next :=
                hwpa.2 pe.2 (List.mem_map.mpr ⟨pe, hpe, rfl⟩)
              rcases List.mem_cons.mp hxa with he3 | ht3
              · subst he3
                exact hpelt
              · cases hmn : lookupStore s pe.2 with
                | none => rw [hmn] at ht3; simp at ht3
                | some mnode =>
                  rw [hmn] at ht3
                  have hwm := hwf (pe.2, mnode) (lookupNat_mem _ _ _ hmn)
                  cases mnode with
                  | root o3 => simp [asObj] at ht3
                  | opN op => simp [asObj] at ht3
                  | objN ms =>
                    simp only [asObj, Option.some_bind, Option.map_some',
                      Option.getD_some] at ht3
                    obtain ⟨mo, hmo, he4⟩ := List.mem_map.mp ht3
                    rw [← he4]
                    exact hwm.2 mo.2 (List.mem_map.mpr ⟨mo, hmo, rfl⟩)

theorem docAddrs_agree (s s' : Store) (a : Nat) (hwf : storeWF s)
    (hext : storeExt s s') (n0 : Node) (ha : lookupStore s a = some n0) :
    docAddrs s' a = docAddrs s a := by
  have hwa := hwf (a, n0) (lookupNat_mem _ _ _ ha)
  unfold docAddrs
  rw [hext.2 a hwa.1, ha]
  cases n0 with
  | objN l => rfl
  | opN op => rfl
  | root o =>
    cases o with
    | none => rfl
    | some pa =>
      have hpa : pa < s.next := hwa.2 pa (by simp [nodeRefs])
      simp only [asRoot, Option.some_bind, Option.map_some', Option.getD_some]
      rw [hext.2 pa hpa]
      cases hpn : lookupStore s pa with
      | none => rfl
      | some pnode =>
        have hwpa := hwf (pa, pnode) (lookupNat_mem _ _ _ hpn)
        cases pnode with
        | root o2 => rfl
        | opN op => rfl
        | objN ps =>
          simp only [asObj, Option.some_bind, Option.map_some', Option.getD_some]
          congr 2
          refine List.flatMap_congr ?_
          intro pe hpe
          have hpelt : pe.2 < s.next :=
            hwpa.2 pe.2 (List.mem_map.mpr ⟨pe, hpe, rfl⟩)
          unfold pathEntryAddrs
          rw [hext.2 pe.2 hpelt]

theorem docAddrs_ge (s : Store) (w a1 : Nat) (hsh : copyShape s w a1) :
    ∀ x ∈ docAddrs s a1, w ≤ x := by
  obtain ⟨pa, ps, ha1, hroot, hpaW, hpaN, hps⟩ := hsh
  intro x hx
  unfold docAddrs at hx
  rw [hroot] at hx
  simp only [asRoot, Option.some_bind, Option.map_some', Option.getD_some] at hx
  rcases List.mem_cons.mp hx with he | ht
  · subst he
    exact ha1
  · rcases List.mem_cons.mp ht with he2 | ht2
    · subst he2
      exact hpaW
    · rw [hpaN] at ht2
      simp only [asObj, Option.some_bind, Option.map_some',
        Option.getD_some] at ht2
      obtain ⟨pe, hpe, hxa⟩ := List.mem_flatMap.mp ht2
      obtain ⟨hpeW, ms, hms, hin⟩ := hps pe hpe
      unfold pathEntryAddrs at hxa
      rcases List.mem_cons.mp hxa with he3 | ht3
      · subst he3
        exact hpeW
      · rw [hms] at ht3
        simp only [asObj, Option.some_bind, Option.map_some',
          Option.getD_some] at ht3
        obtain ⟨mo, hmo, he4⟩ := List.mem_map.mp ht3
        rw [← he4]
        exact (hin mo hmo).1

/-- C7: `PlanApplier.apply`, run on the heap, deep-copies the document and
writes folders only through the copy: the document argument reads back
structurally unchanged, the call returns a fresh readable document at a new
root, and the returned document's object graph shares no cell with the
argument's. -/
theorem applyReorganizationS_no_mutation (s : Store) (a : Nat)
    (plan : ReorganizationPlan) (d : Document) (hwf : storeWF s)
    (hr : readDoc s a = some d) :
    ∃ s' a1, applyReorganizationS s a plan = (s', some a1) ∧
      readDoc s' a = some d ∧ (readDoc s' a1).isSome = true ∧
      List.Disjoint (docAddrs s' a) (docAddrs s' a1) := by
  obtain ⟨hwfC, hextC, hshC⟩ := allocDoc_spec s d hwf
  have happ : applyReorganizationS s a plan =
      (plan.changes.foldl (applyChangeS (allocDoc s d).2) (allocDoc s d).1,
        some (allocDoc s d).2) := by
    simp only [applyReorganizationS, hr]
  obtain ⟨hsh', hext'⟩ := foldl_applyChangeS_preserves s (allocDoc s d).2
    plan.changes (allocDoc s d).1 hshC hextC
  obtain ⟨paA, psA, hraA, _, _⟩ := readDoc_inv s a d hr
  refine ⟨_, (allocDoc s d).2, happ,
    readDoc_ext s _ a d hwf hext' hr,
    copyShape_readDoc_isSome _ s.next _ hsh', ?_⟩
  intro x hx hx'
  have h2 : s.next ≤ x := docAddrs_ge _ s.next _ hsh' x hx'
  have h1 : x < s.next := by
    rw [docAddrs_agree s _ a hwf hext' _ hraA] at hx
    exact docAddrs_lt s a hwf _ hraA x hx
  omega

/-- A small concrete store holding one document at root address 0: one path
`/a` with an empty methods object. -/
def c7Store : Store :=
  ⟨3, [(0, Node.root (some 1)), (1, Node.objN [("/a", 2)]), (2, Node.objN [])]⟩

/-- A small concrete plan with one change targeting `/a`. -/
def c7Plan : ReorganizationPlan :=
  { strategy := "path-based", totalEndpoints := 1, changesCount := 1,
    unchangedCount := 0, proposedFolders := [],
    changes := [⟨"GET", "/a", "", "(none)", "A"⟩], unchanged := [] }

theorem applyReorganizationS_no_mutation_witness :
    storeWF c7Store ∧ readDoc c7Store 0 = some ⟨[("/a", [])]⟩ ∧
    ∃ s' a1, applyReorganizationS c7Store 0 c7Plan = (s', some a1) ∧
      readDoc s' 0 = some ⟨[("/a", [])]⟩ ∧ (readDoc s' a1).isSome = true ∧
      List.Disjoint (docAddrs s' 0) (docAddrs s' a1) :=
  ⟨by unfold storeWF; decide, by decide,
    applyReorganizationS_no_mutation c7Store 0 c7Plan ⟨[("/a", [])]⟩
      (by unfold storeWF; decide) (by decide)⟩

end ApidogSync

